import Mathlib

/-!
A verification development for the parsing core of the practal text library:
the result-tree data model, the parser combinators, the section (re-indentation)
parser, window views over line-addressed text, the join helper, the LR driver's
failure policy and the result printer. TypeScript exceptions are modelled with
an explicit `Except` layer; the unbounded loops of the source (greedy repetition
and the LR runtime loop) are modelled with step fuel, exhaustion of which is a
distinguished outcome separate from parse failure.
-/

set_option maxHeartbeats 1000000

namespace PractalText

/-- A normalized character (TS `TextChar`, a one-character normalized string). -/
abbrev TextChar := Char

/-- TS `Text`: an immutable sequence of normalized characters, modelled as a list.
`count` is `List.length`, `charAt` is list indexing, `slice` is drop/take. -/
abbrev Txt := List TextChar

/-- TS `textOf` on a string literal; NFC normalization is the identity on the
ASCII inputs appearing in this development. -/
def textOf (s : String) : Txt := s.data

/-- The exceptions thrown by the modelled code, plus a marker for exhausted
step fuel (the source's unbounded loops). `invalidPosition` is
`TextLines.assert`, `invalidArguments`/`invalidLayout` are thrown by
`joinResults`, `invalidSlice` by `Text.slice`, `internal` covers
`internalError`/`force` in the LR driver. -/
inductive Err where
  | invalidPosition
  | invalidArguments
  | invalidLayout
  | invalidSlice
  | internal
  | fuel
deriving DecidableEq, Repr

/-- The three-valued result kind. The source overloads a nullable field
`type : T | null | undefined`: `undefined` means discarded, `null` means
structural, any other value is a label. -/
inductive RType (τ : Type) where
  | discarded
  | structural
  | labeled (t : τ)
deriving DecidableEq, Repr

/-- TS `Result<T>` from parser.ts: a parse-tree node with a kind, a span given
by start/end line and column, and ordered children. -/
inductive Result (τ : Type) : Type where
  | mk (type : RType τ) (startLine startColumnInclusive endLine endColumnExclusive : Nat)
      (children : List (Result τ)) : Result τ

namespace Result

def type : Result τ → RType τ
  | .mk t _ _ _ _ _ => t

/-- The TS check `type !== undefined` used when collecting children. -/
def isDiscarded : Result τ → Bool
  | .mk .discarded _ _ _ _ _ => true
  | _ => false

def startLine : Result τ → Nat
  | .mk _ a _ _ _ _ => a

def startColumnInclusive : Result τ → Nat
  | .mk _ _ b _ _ _ => b

def endLine : Result τ → Nat
  | .mk _ _ _ c _ _ => c

def endColumnExclusive : Result τ → Nat
  | .mk _ _ _ _ d _ => d

def children : Result τ → List (Result τ)
  | .mk _ _ _ _ _ cs => cs

@[simp] theorem type_mk : (Result.mk t a b c d cs : Result τ).type = t := rfl
@[simp] theorem startLine_mk : (Result.mk t a b c d cs : Result τ).startLine = a := rfl
@[simp] theorem startColumnInclusive_mk :
    (Result.mk t a b c d cs : Result τ).startColumnInclusive = b := rfl
@[simp] theorem endLine_mk : (Result.mk t a b c d cs : Result τ).endLine = c := rfl
@[simp] theorem endColumnExclusive_mk :
    (Result.mk t a b c d cs : Result τ).endColumnExclusive = d := rfl
@[simp] theorem children_mk : (Result.mk t a b c d cs : Result τ).children = cs := rfl

end Result

/-- A (line, column) position. -/
abbrev Pos := Nat × Nat

/-- TS `startOfResult`. -/
def startOfResult (r : Result τ) : Pos := (r.startLine, r.startColumnInclusive)

/-- TS `endOfResult`. -/
def endOfResult (r : Result τ) : Pos := (r.endLine, r.endColumnExclusive)

/-- TS `resultCoordinatesAreValid` from parser.ts: the start position does not
lie after the end position, lexicographically. The `nat.is` checks of the
source hold identically for `Nat` arguments. -/
def resultCoordinatesAreValid (startLine startColumn endLine endColumn : Nat) : Bool :=
  if startLine ≠ endLine then decide (startLine < endLine) else decide (startColumn ≤ endColumn)

/-- Lexicographic order on positions; the propositional form of
`resultCoordinatesAreValid`. -/
def posLe (p q : Pos) : Prop := p.1 < q.1 ∨ (p.1 = q.1 ∧ p.2 ≤ q.2)

instance (p q : Pos) : Decidable (posLe p q) := by
  unfold posLe; infer_instance

theorem resultCoordinatesAreValid_iff {a b c d : Nat} :
    resultCoordinatesAreValid a b c d = true ↔ posLe (a, b) (c, d) := by
  unfold resultCoordinatesAreValid posLe
  by_cases h : a = c
  · subst h; simp
  · rw [if_pos h]
    simp only [decide_eq_true_eq]
    exact ⟨fun hl => Or.inl hl, fun hor => hor.elim id (fun hx => absurd hx.1 h)⟩

theorem posLe_refl (p : Pos) : posLe p p := Or.inr ⟨rfl, le_refl _⟩

theorem posLe_trans {p q r : Pos} (h1 : posLe p q) (h2 : posLe q r) : posLe p r := by
  unfold posLe at *
  omega

theorem posLe_total (p q : Pos) : posLe p q ∨ posLe q p := by
  unfold posLe; omega

/-- TS `TextLines` interface: the line-addressed text operations the parsing
core reads. `assert` is modelled separately via the `valid` field; the
`absolute` operation is not consumed by any property below. -/
structure TextLines where
  lineCount : Nat
  lineAt : Nat → Txt
  valid : Nat → Nat → Bool

/-- Coherence of a `TextLines` value: its `valid` test has the shape of
`TextLinesImpl.valid` (a position is on a line with a column at most the line
length, or the text is empty and the position is (0,0)). Every implementation
of the interface in the source satisfies this. -/
def TextLines.WF (tl : TextLines) : Prop :=
  ∀ l c, tl.valid l c = true ↔
    ((l < tl.lineCount ∧ c ≤ (tl.lineAt l).length) ∨ (tl.lineCount = 0 ∧ l = 0 ∧ c = 0))

/-- TS `TextLines.assert`: throws `InvalidPosition` unless the position is valid. -/
def TextLines.assert (tl : TextLines) (l c : Nat) : Except Err Unit :=
  if tl.valid l c then .ok () else .error .invalidPosition

theorem TextLines.assert_ok {tl : TextLines} {l c : Nat} (h : tl.valid l c = true) :
    tl.assert l c = .ok () := by
  simp [TextLines.assert, h]

/-- TS `createTextLines` on a prepared list of lines (`TextLinesImpl`). -/
def createTextLines (lines : List Txt) : TextLines where
  lineCount := lines.length
  lineAt := fun l => lines.getD l []
  valid := fun l c =>
    if l < lines.length then decide (c ≤ (lines.getD l []).length)
    else decide (lines.length = 0 ∧ l = 0 ∧ c = 0)

theorem createTextLines_WF (lines : List Txt) : (createTextLines lines).WF := by
  intro l c
  simp only [createTextLines]
  by_cases h : l < lines.length
  · rw [if_pos h]
    simp only [decide_eq_true_eq]
    omega
  · rw [if_neg h]
    simp only [decide_eq_true_eq]
    omega

@[simp] theorem createTextLines_lineCount (lines : List Txt) :
    (createTextLines lines).lineCount = lines.length := rfl

@[simp] theorem createTextLines_lineAt (lines : List Txt) (l : Nat) :
    (createTextLines lines).lineAt l = lines.getD l [] := rfl

/-- TS `ParseResult<State, T>`: `undefined` (here `none`) is parse failure. -/
abbrev ParseResult (σ τ : Type) := Option (σ × Result τ)

/-- TS `Parser<State, T>`, with thrown exceptions made explicit. -/
abbrev Parser (σ τ : Type) := σ → TextLines → Nat → Nat → Except Err (ParseResult σ τ)

/-- TS `Lexer` from lexer.ts: columns consumed on success, negative on failure. -/
abbrev Lexer := Txt → Nat → Int

/-- TS `emptyP`: a zero-length structural node at the entry position. -/
def emptyP : Parser σ τ := fun state lines line column => do
  lines.assert line column
  pure (some (state, .mk .structural line column line column []))

/-- TS `failP`. -/
def failP : Parser σ τ := fun _ lines line column => do
  lines.assert line column
  pure none

/-- TS `charP`: a one-character discarded node when the predicate holds at the
position. -/
def charP (predicate : TextChar → Bool) : Parser σ τ := fun state lines line column => do
  lines.assert line column
  if line ≥ lines.lineCount then pure none
  else
    let text := lines.lineAt line
    if column ≥ text.length then pure none
    else if !(predicate (text.getD column ' ')) then pure none
    else pure (some (state, .mk .discarded line column line (column + 1) []))

/-- TS `anyCharP`. -/
def anyCharP : Parser σ τ := charP (fun _ => true)

/-- TS `newlineP`: at the end of a non-last line, a discarded node spanning to
the start of the next line. -/
def newlineP : Parser σ τ := fun state lines line column => do
  lines.assert line column
  if line + 1 < lines.lineCount ∧ column = (lines.lineAt line).length then
    pure (some (state, .mk .discarded line column (line + 1) 0 []))
  else pure none

/-- TS `eofP`: a zero-length discarded node past the last line or at the end of
the last line. -/
def eofP : Parser σ τ := fun state lines line column => do
  lines.assert line column
  if line = lines.lineCount ∨ (line + 1 = lines.lineCount ∧ column = (lines.lineAt line).length) then
    pure (some (state, .mk .discarded line column line column []))
  else pure none

/-- TS `bolP`: a zero-length discarded node at column 0 of an existing line. -/
def bolP : Parser σ τ := fun state lines line column => do
  lines.assert line column
  if line < lines.lineCount ∧ column = 0 then
    pure (some (state, .mk .discarded line column line column []))
  else pure none

/-- The iteration of TS `seqP`: thread state and cursor through the parsers,
collecting the non-discarded results as children. -/
def seqPRun (lines : TextLines) :
    List (Parser σ τ) → σ → Nat → Nat → List (Result τ) →
    Except Err (Option (σ × Nat × Nat × List (Result τ)))
  | [], state, line, column, children => pure (some (state, line, column, children))
  | p :: ps, state, line, column, children => do
    match ← p state lines line column with
    | none => pure none
    | some (state2, result) =>
      seqPRun lines ps state2 result.endLine result.endColumnExclusive
        (children ++ (if result.isDiscarded then [] else [result]))

/-- TS `seqP`: zero parsers yield `emptyP`, one parser is returned as-is,
otherwise the results are assembled into a structural node. -/
def seqP (parsers : List (Parser σ τ)) : Parser σ τ :=
  match parsers with
  | [] => emptyP
  | [p] => p
  | _ => fun state lines line column => do
      lines.assert line column
      match ← seqPRun lines parsers state line column [] with
      | none => pure none
      | some (state2, line2, column2, children) =>
        pure (some (state2, .mk .structural line column line2 column2 children))

/-- The iteration of TS `orP`. -/
def orPRun (lines : TextLines) :
    List (Parser σ τ) → σ → Nat → Nat → Except Err (ParseResult σ τ)
  | [], _, _, _ => pure none
  | p :: ps, state, line, column => do
    match ← p state lines line column with
    | some r => pure (some r)
    | none => orPRun lines ps state line column

/-- TS `orP`: try in order, first non-failure wins. -/
def orP (parsers : List (Parser σ τ)) : Parser σ τ := fun state lines line column => do
  lines.assert line column
  orPRun lines parsers state line column

/-- The loop of TS `repP`, with explicit iteration fuel. Running out of fuel is
the distinguished outcome `Err.fuel`: the source loop would still be running. -/
def repPRun (parser : Parser σ τ) (lines : TextLines) (startLine startColumn : Nat) :
    Nat → σ → Nat → Nat → List (Result τ) → Except Err (ParseResult σ τ)
  | 0, _, _, _, _ => .error .fuel
  | fuel + 1, state, line, column, children => do
    match ← parser state lines line column with
    | none => pure (some (state, .mk .structural startLine startColumn line column children))
    | some (state2, result) =>
      repPRun parser lines startLine startColumn fuel state2 result.endLine
        result.endColumnExclusive (children ++ (if result.isDiscarded then [] else [result]))

/-- TS `repP`: greedy repetition of the inner sequence. -/
def repP (parsers : List (Parser σ τ)) (fuel : Nat) : Parser σ τ :=
  let parser := seqP parsers
  fun state lines line column => do
    lines.assert line column
    repPRun parser lines line column fuel state line column []

/-- TS `modifyParseResultP`. -/
def modifyParseResultP (parser : Parser σ τ)
    (modify : TextLines → ParseResult σ τ → ParseResult σ τ) : Parser σ τ :=
  fun state lines line column => do
    let pr ← parser state lines line column
    pure (modify lines pr)

/-- TS `modifyResultP`. -/
def modifyResultP (parser : Parser σ τ)
    (modify : TextLines → σ → Result τ → Option (Result τ)) : Parser σ τ :=
  modifyParseResultP parser (fun lines pr =>
    match pr with
    | none => none
    | some (state, result) =>
      match modify lines state result with
      | none => none
      | some r2 => some (state, r2))

/-- TS `modifyTypeP`. -/
def modifyTypeP (parser : Parser σ τ)
    (type : TextLines → σ → Result τ → RType τ) : Parser σ τ :=
  modifyResultP parser (fun lines state result =>
    some (.mk (type lines state result) result.startLine result.startColumnInclusive
      result.endLine result.endColumnExclusive result.children))

/-- TS `setTypeP`. -/
def setTypeP (type : RType τ) (parser : Parser σ τ) : Parser σ τ :=
  modifyTypeP parser (fun _ _ _ => type)

/-- TS `literalP`: a sequence of character parsers, one per normalized
character, with the node kind replaced by the given label. -/
def literalP (text : Txt) (type : RType τ) : Parser σ τ :=
  setTypeP type (seqP (text.map (fun c => charP (fun d => c == d))))

/-- The walk of TS `joinResults`: a cursor starts at the computed start, must
not pass any child's start, and advances to each child's end; after the last
child it must not lie beyond the computed end. Children of kind discarded are
excluded from the produced list. -/
def joinWalk : Pos → Pos → List (Result τ) → Except Err (List (Result τ))
  | cur, en, [] =>
    if resultCoordinatesAreValid cur.1 cur.2 en.1 en.2 then pure [] else .error .invalidLayout
  | cur, en, r :: rs =>
    if resultCoordinatesAreValid cur.1 cur.2 r.startLine r.startColumnInclusive then do
      let rest ← joinWalk (endOfResult r) en rs
      pure (if r.isDiscarded then rest else r :: rest)
    else .error .invalidLayout

/-- TS `joinResults` from parser.ts. Throws `InvalidArguments` when no results
and not both explicit bounds are given, and `InvalidLayout` when the walk
fails. -/
def joinResults (results : List (Result τ)) (type : RType τ)
    (start? end? : Option Pos) : Except Err (Result τ) :=
  if results.isEmpty && (start?.isNone || end?.isNone) then .error .invalidArguments
  else
    let s := match start? with
      | some p => p
      | none => match results with
        | r :: _ => startOfResult r
        | [] => (0, 0)
    let e := match end? with
      | some p => p
      | none => match results.getLast? with
        | some r => endOfResult r
        | none => (0, 0)
    do
      let children ← joinWalk s e results
      pure (.mk type s.1 s.2 e.1 e.2 children)

/-- The scan of TS `cutoffAfterIndentation`: starting below the entry line,
find the first line that is not indented; `n` is the number of lines left. -/
def cutoffScan (source : TextLines) (isIndented : Txt → Bool) : Nat → Nat → Option Nat
  | _, 0 => none
  | l, n + 1 => if isIndented (source.lineAt l) then cutoffScan source isIndented (l + 1) n else some l

/-- TS `cutoffAfterIndentation`: restrict the line count to the first
non-indented line after the entry line; if every following line is indented,
the source itself is returned. The restricted view keeps the source's lines
(the source throws only for lines past the source's own line count). -/
def cutoffAfterIndentation (source : TextLines) (line : Nat) (isIndented : Txt → Bool) :
    Except Err TextLines := do
  source.assert line 0
  match cutoffScan source isIndented (line + 1) (source.lineCount - (line + 1)) with
  | none => pure source
  | some cut =>
    let view : TextLines :=
      { lineCount := cut
        lineAt := fun l => if l ≥ source.lineCount then [] else source.lineAt l
        valid := fun l c => source.valid l c && decide (l < cut) }
    pure view

/-- The data of TS `TextLinesWindow`: the window's lines, the source line of the
window's first line, and for each window line the source column it starts at. -/
structure TextLinesWindow where
  startLine : Nat
  lines : List Txt
  columns : List Nat

/-- A TS `CutoutTextLines`: either a proper window or the empty view anchored
at a single source position (`EmptyTextLines`). -/
inductive Cutout where
  | window (w : TextLinesWindow)
  | empty (line column : Nat)

/-- The `TextLines` behaviour of a `TextLinesWindow`. -/
def TextLinesWindow.toTextLines (w : TextLinesWindow) : TextLines where
  lineCount := w.lines.length
  lineAt := fun l => w.lines.getD l []
  valid := fun l c =>
    if l < w.lines.length then decide (c ≤ (w.lines.getD l []).length)
    else decide (w.lines.length = 0 ∧ l = 0 ∧ c = 0)

/-- The `TextLines` behaviour of a `CutoutTextLines`. -/
def Cutout.toTextLines : Cutout → TextLines
  | .window w => w.toTextLines
  | .empty _ _ =>
      { lineCount := 0
        lineAt := fun _ => []
        valid := fun l c => decide (l = 0 ∧ c = 0) }

/-- TS `shift` of `TextLinesWindow` / `EmptyTextLines`: translate a coordinate
inside the window back to source coordinates; asserts the coordinate first. -/
def Cutout.shift (w : Cutout) (l c : Nat) : Except Err Pos := do
  w.toTextLines.assert l c
  match w with
  | .window w => pure (l + w.startLine, c + w.columns.getD l 0)
  | .empty sl sc => pure (sl, sc)

/-- TS `Text.slice(start)` with the end index defaulting to the count: throws
when the start lies beyond the count. -/
def sliceFrom (text : Txt) (start : Nat) : Except Err Txt :=
  if start ≤ text.length then .ok (text.drop start) else .error .invalidSlice

/-- The loop of TS `cutoutTextLines` over the lines after the anchor line:
include each line with `skipRemaining` leading columns trimmed, stopping at
the first negative return; `n` is the number of source lines left. -/
def cutoutLoop (source : TextLines) (skipRemaining : Lexer) :
    Nat → Nat → Except Err (List Txt × List Nat)
  | _, 0 => pure ([], [])
  | i, n + 1 =>
    let text := source.lineAt i
    let skipped := skipRemaining text 0
    if skipped < 0 then pure ([], [])
    else do
      let rest ← sliceFrom text skipped.toNat
      let (ls, cs) ← cutoutLoop source skipRemaining (i + 1) n
      pure (rest :: ls, skipped.toNat :: cs)

/-- TS `cutoutTextLines` from textlines.ts: cut a window out of a source,
starting at the given position after `skipFirst` (negative returns clamped to
zero), ending before the first subsequent line where `skipRemaining` is
negative. -/
def cutoutTextLines (source : TextLines) (line column : Nat)
    (skipFirst skipRemaining : Lexer) : Except Err Cutout := do
  source.assert line column
  if source.lineCount = 0 then pure (.empty line column)
  else
    let text := source.lineAt line
    let skipped := (max (skipFirst text column) 0).toNat
    let first ← sliceFrom text (column + skipped)
    let (ls, cs) ← cutoutLoop source skipRemaining (line + 1) (source.lineCount - (line + 1))
    pure (.window ⟨line, first :: ls, (column + skipped) :: cs⟩)

mutual

/-- TS `shiftResult` from combinators.ts: translate a result's span (and,
recursively, its children's) from window coordinates back to source
coordinates. -/
def shiftResult (w : Cutout) : Result τ → Except Err (Result τ)
  | .mk t sl sc el ec cs => do
    let p1 ← w.shift sl sc
    let p2 ← w.shift el ec
    let cs2 ← shiftResultList w cs
    pure (.mk t p1.1 p1.2 p2.1 p2.2 cs2)

def shiftResultList (w : Cutout) : List (Result τ) → Except Err (List (Result τ))
  | [] => pure []
  | r :: rs => do
    let r2 ← shiftResult w r
    let rs2 ← shiftResultList w rs
    pure (r2 :: rs2)

end

/-- TS `sectionP` from combinators.ts: the re-indentation combinator. Fails at
a nonzero column; runs the bullet on a cut-off view, the body on a cut-out
window (shifting its spans back to source coordinates), optionally the after
parser at the post-body position, and joins the pieces into a structural node.
The returned user state is the body parser's state. -/
def sectionP (bulletP : Parser σ τ) (bodyP : TextLines → σ → Result τ → Parser σ τ)
    (spacesL indentationL : Lexer) (afterP : Parser σ τ) : Parser σ τ :=
  fun state lines line column => do
    lines.assert line column
    if column > 0 then pure none
    else do
      let start : Pos := (line, column)
      let bulletLines ← cutoffAfterIndentation lines line (fun text => spacesL text 0 > 0)
      match ← bulletP state bulletLines line column with
      | none => pure none
      | some (state1, bulletResult) => do
        let line1 := bulletResult.endLine
        let column1 := bulletResult.endColumnExclusive
        let bodyLines ← cutoutTextLines lines line1 column1 spacesL indentationL
        let bodyParser := bodyP lines state1 bulletResult
        match ← bodyParser state1 bodyLines.toTextLines 0 0 with
        | none => pure none
        | some (state2, bodyResult0) => do
          let bodyResult ← shiftResult bodyLines bodyResult0
          let line2 := bodyResult.endLine
          let column2 := bodyResult.endColumnExclusive
          match ← afterP state2 lines line2 column2 with
          | none => do
            let joined ← joinResults [bulletResult, bodyResult] .structural
              (some start) (some (line2, column2))
            pure (some (state2, joined))
          | some (state3, afterResult) => do
            let _ := state3
            let joined ← joinResults [bulletResult, bodyResult, afterResult] .structural
              (some start) (some (endOfResult afterResult))
            pure (some (state2, joined))

/-- TS `textlinesUntil` from textlines.ts: truncate a `TextLines` at the given
end position; an end line past the input returns the input unchanged. -/
def textlinesUntil (lines : TextLines) (endLine endColumn : Nat) : TextLines :=
  if endLine ≥ lines.lineCount then lines
  else
    let lastLine :=
      if (lines.lineAt endLine).length ≤ endColumn then lines.lineAt endLine
      else (lines.lineAt endLine).take endColumn
    { lineCount := endLine + 1
      lineAt := fun l =>
        if l < endLine then lines.lineAt l else if l = endLine then lastLine else []
      valid := fun l c =>
        if !(lines.valid l c) then false
        else if l < endLine then true
        else if l > endLine then false
        else decide (c ≤ lastLine.length) }

mutual

/-- TS `pruneResult` from parser.ts, returning the list the source appends to
its accumulator: discarded nodes contribute nothing, structural nodes
contribute their pruned children, labeled nodes contribute a copy with pruned
children. -/
def pruneResult : Result τ → List (Result τ)
  | .mk t sl sc el ec cs =>
    match t with
    | .discarded => []
    | .structural => pruneResultList cs
    | .labeled x => [.mk (.labeled x) sl sc el ec (pruneResultList cs)]

def pruneResultList : List (Result τ) → List (Result τ)
  | [] => []
  | r :: rs => pruneResult r ++ pruneResultList rs

end

/-- TS `digits`: decimal rendering left-padded with zeros to the length. -/
def digits (x : Nat) (len : Nat) : String :=
  let s := toString x
  String.mk (List.replicate (len - s.length) '0') ++ s

/-- TS `printRange`: the span rendered with line and column numbers zero-padded
to two digits. -/
def printRange (r : Result τ) : String :=
  "[" ++ digits r.startLine 2 ++ ":" ++ digits r.startColumnInclusive 2 ++ " to " ++
    digits r.endLine 2 ++ ":" ++ digits r.endColumnExclusive 2 ++ "["

/-- TS `Text.slice(start, end)`: throws when the range is not within the text. -/
def sliceRange (text : Txt) (s e : Nat) : Except Err Txt :=
  if s > e then .error .invalidSlice
  else if e > text.length then .error .invalidSlice
  else .ok ((text.drop s).take (e - s))

/-- TS `copySliceOfTextLines` from textlines.ts. -/
def copySliceOfTextLines (tl : TextLines) (startLine startColumn endLine endColumn : Nat) :
    Except Err TextLines := do
  tl.assert startLine startColumn
  tl.assert endLine endColumn
  if tl.lineCount = 0 then pure (createTextLines [])
  else do
    let lastLine := min (tl.lineCount - 1) endLine
    let idxs := List.range' startLine (lastLine + 1 - startLine)
    let ls ← idxs.mapM (fun i =>
      sliceRange (tl.lineAt i) (if i = startLine then startColumn else 0)
        (if i = endLine then endColumn else (tl.lineAt i).length))
    pure (createTextLines ls)

/-- TS `textOfTextLines` with the default newline separator. -/
def textOfTextLines (tl : TextLines) : Txt :=
  List.intercalate (textOf "\n") ((List.range tl.lineCount).map tl.lineAt)

/-- TS `textOfResult` from parser.ts. -/
def textOfResult (tl : TextLines) (r : Result τ) : Except Err Txt := do
  pure (textOfTextLines (← copySliceOfTextLines tl r.startLine r.startColumnInclusive
    r.endLine r.endColumnExclusive))

/-- TS `force` applied to a result kind: the label, or a thrown error for the
null/undefined encodings (unreachable on pruned trees). -/
def forceType : RType τ → Except Err τ
  | .labeled t => pure t
  | _ => .error .internal

mutual

/-- The `process` closure of TS `printResult`: one line for the node, then,
when the node is not opaque and not an atomic same-line leaf, the lines of its
children at an indent one level deeper. Output is modelled as the returned list
of printed lines. -/
def processResult (tl : TextLines) (nameOf : τ → String) (isOpaque : τ → Bool)
    (pad : String) : Result τ → Except Err (List String)
  | .mk t sl sc el ec cs => do
    let r : Result τ := .mk t sl sc el ec cs
    let type ← forceType t
    let isOp := isOpaque type
    if cs.length = 0 ∧ sl = el then do
      let text ← textOfResult tl r
      if isOp then pure [printRange r ++ pad ++ "   " ++ nameOf type]
      else pure [printRange r ++ pad ++ "   " ++ nameOf type ++ " = \"" ++ String.mk text ++ "\""]
    else
      if isOp then pure [printRange r ++ pad ++ "   " ++ nameOf type]
      else do
        let rest ← processResultList tl nameOf isOpaque (pad ++ "    ") cs
        pure ((printRange r ++ pad ++ "   " ++ nameOf type) :: rest)

def processResultList (tl : TextLines) (nameOf : τ → String) (isOpaque : τ → Bool)
    (pad : String) : List (Result τ) → Except Err (List String)
  | [] => pure []
  | r :: rs => do
    let out ← processResult tl nameOf isOpaque pad r
    let outs ← processResultList tl nameOf isOpaque pad rs
    pure (out ++ outs)

end

/-- TS `printResult` from parser.ts: prune the tree, then print each pruned
root at depth zero. -/
def printResult (tl : TextLines) (result : Result τ) (nameOf : τ → String)
    (isOpaque : τ → Bool) : Except Err (List String) :=
  processResultList tl nameOf isOpaque "" (pruneResult result)

/-! ### The LR driver (src/unnamed/part_001) -/

/-- A grammar symbol; the source interns symbols as strings, `null` (here
`none`) denotes the final/EOF terminal. -/
abbrev Sym := String

/-- TS `TerminalParsers<State, T>`: for a requested set of terminal symbols,
a reader returning the candidate matches at a position. The set is modelled as
an insertion-ordered duplicate-free list. -/
abbrev TerminalParsers (σ τ : Type) :=
  List (Option Sym) → σ → TextLines → Nat → Nat → List (Option Sym × σ × Result τ)

/-- The loop of TS `orTerminalParsers`. -/
def orTPRun (state : σ) (lines : TextLines) (line offset : Nat) :
    List (σ → TextLines → Nat → Nat → List (Option Sym × σ × Result τ)) →
    List (Option Sym × σ × Result τ)
  | [] => []
  | p :: ps => p state lines line offset ++ orTPRun state lines line offset ps

/-- TS `orTerminalParsers`: every sub-parser's results, in order. -/
def orTerminalParsers (parsers : List (TerminalParsers σ τ)) : TerminalParsers σ τ :=
  fun terminals =>
    let specificParsers := parsers.map (fun p => p terminals)
    fun state lines line offset => orTPRun state lines line offset specificParsers

/-- The loop of TS `orGreedyTerminalParsers`. -/
def orGreedyTPRun (state : σ) (lines : TextLines) (line offset : Nat) :
    List (σ → TextLines → Nat → Nat → List (Option Sym × σ × Result τ)) →
    List (Option Sym × σ × Result τ)
  | [] => []
  | p :: ps =>
    let results := p state lines line offset
    if results.length > 0 then results else orGreedyTPRun state lines line offset ps

/-- TS `orGreedyTerminalParsers`: the first sub-parser producing any result wins. -/
def orGreedyTerminalParsers (parsers : List (TerminalParsers σ τ)) : TerminalParsers σ τ :=
  fun terminals =>
    let specificParsers := parsers.map (fun p => p terminals)
    fun state lines line offset => orGreedyTPRun state lines line offset specificParsers

mutual

/-- Modelled from the spec: the per-state ActionPlan consumed by the LR driver
(actionplan.ts is not under src). Kinds per spec section 4.5: Error, Accept,
Reduce(rule), Shift(targetState, munch) and Read(options). -/
inductive ActionPlan : Type where
  | error
  | accept
  | reduce (rule : Nat)
  | shift (state : Nat) (munch : Nat)
  | read (options : ReadOptions)

/-- Modelled from the spec: the option list of a Read plan, each option pairing
a set of candidate terminal handles with a continuation plan. -/
inductive ReadOptions : Type where
  | nil
  | cons (terminals : List Nat) (plan : ActionPlan) (rest : ReadOptions)

end

/-- Modelled from the spec: the LR actions produced by plan execution (lr.ts is
not under src): Accept, Reduce(rule) or Shift(state). -/
inductive Action where
  | accept
  | reduce (rule : Nat)
  | shift (state : Nat)

/-- Modelled from the spec: a grammar rule as consumed by the driver (lr.ts is
not under src): a left-hand nonterminal handle and a right-hand side of symbol
handles whose length drives reductions. -/
structure Rule where
  lhs : Nat
  rhs : List Nat

/-- The construction-time environment closed over by `mkParser` in the LR
driver: the tables derived from the grammar and LR(1) graph (whose
construction is out of scope for the core), the terminal parsers, the
nonterminal label map, and the optional invalid label (`none`: not provided;
`some none`: the null label, producing a structural tree; `some (some t)`:
a labeled tree). -/
structure LRConfig (σ τ : Type) where
  plans : List ActionPlan
  finalStates : List Nat
  rules : List Rule
  gotoMap : Nat → Nat → Option Nat
  symsOf : Nat → Option (List Sym)
  handleOf : List Sym → Option Nat
  nonterminals : Sym → Option τ
  terminalParsers : TerminalParsers σ τ
  invalid : Option (Option τ)

/-- The mutable locals of TS `executePlan`: the user state, the cursor, the
tokens and user states pushed by Read steps, and the munch recorded by Shift. -/
structure ExecSt (σ τ : Type) where
  state : σ
  line : Nat
  offset : Nat
  tokens : List (Result τ)
  states : List σ
  munch : Nat

/-- Translate one terminal handle to a symbol: handle 0 is the EOF terminal
(`none`); otherwise `symsOf` must resolve to exactly one symbol, as in the
Read step of `executePlan` (a TS `Error` otherwise). -/
def handleToSym (cfg : LRConfig σ τ) (t : Nat) : Except Err (Option Sym) :=
  if t = 0 then pure none
  else match cfg.symsOf t with
    | some [s] => pure (some s)
    | _ => .error .internal

/-- Collect the handles of one Read option into the terminal-symbol set,
preserving insertion order without duplicates (a TS `Set`). -/
def collectHandles (cfg : LRConfig σ τ) :
    List Nat → List (Option Sym) → Except Err (List (Option Sym))
  | [], acc => pure acc
  | t :: ts, acc => do
    let s ← handleToSym cfg t
    collectHandles cfg ts (if acc.contains s then acc else acc ++ [s])

/-- Collect the candidate terminal symbols of all Read options. -/
def collectTerminals (cfg : LRConfig σ τ) :
    ReadOptions → List (Option Sym) → Except Err (List (Option Sym))
  | .nil, acc => pure acc
  | .cons ts _ rest, acc => do
    let acc2 ← collectHandles cfg ts acc
    collectTerminals cfg rest acc2

mutual

/-- The `execute` closure of TS `executePlan`: run a plan, reading terminals at
Read steps, until an action or an error is decided. `none` is the Error
outcome. -/
def executeStep (cfg : LRConfig σ τ) (lines : TextLines) :
    ActionPlan → ExecSt σ τ → Except Err (Option (Action × ExecSt σ τ))
  | .error, _ => pure none
  | .accept, es => pure (some (.accept, es))
  | .reduce r, es => pure (some (.reduce r, es))
  | .shift s m, es => pure (some (.shift s, { es with munch := m }))
  | .read options, es => do
    let terminalSymbols ← collectTerminals cfg options []
    match cfg.terminalParsers terminalSymbols es.state lines es.line es.offset with
    | [(sym, newState, result)] => do
      let symHandle ← match sym with
        | none => pure 0
        | some s =>
          match cfg.handleOf [s] with
          | some h => pure h
          | none => .error .internal
      executeOptions cfg lines options symHandle
        { es with line := result.endLine, offset := result.endColumnExclusive }
        newState result
    | _ => pure none

/-- The option-matching loop of the Read step: follow the continuation of the
first option whose candidate set contains the read terminal's handle, pushing
the token and the new user state; no match is an internal error. -/
def executeOptions (cfg : LRConfig σ τ) (lines : TextLines) :
    ReadOptions → Nat → ExecSt σ τ → σ → Result τ → Except Err (Option (Action × ExecSt σ τ))
  | .nil, _, _, _, _ => .error .internal
  | .cons ts plan rest, symHandle, es, newState, result =>
    if ts.contains symHandle then
      executeStep cfg lines plan
        { es with
          state := newState,
          states := es.states ++ [newState],
          tokens := es.tokens ++ [result] }
    else executeOptions cfg lines rest symHandle es newState result

end

/-- TS `executePlan`: run a plan from the given position, then keep only the
first `munch` buffered tokens and roll the user state back to `states[munch]`.
The source would propagate an undefined user state when `munch` exceeds the
number of reads; this is modelled as an internal error. -/
def executePlan (cfg : LRConfig σ τ) (state : σ) (lines : TextLines) (line offset : Nat)
    (plan : ActionPlan) : Except Err (Option (List (Result τ) × σ × Action)) := do
  match ← executeStep cfg lines plan ⟨state, line, offset, [], [state], 0⟩ with
  | none => pure none
  | some (action, es) =>
    let tokens := es.tokens.take es.munch
    match es.states.get? es.munch with
    | some s => pure (some (tokens, s, action))
    | none => .error .internal

/-- The mutable locals of the runtime loop of TS `mkParser`: the user state,
the LR state stack and the buffer of partial trees (both with their top first;
the source keeps the top at the array end), the recorded `lastValid` position
and the cursor. -/
structure LoopSt (σ τ : Type) where
  state : σ
  lrStates : List Nat
  results : List (Result τ)
  lastValid : Option Pos
  line : Nat
  offset : Nat

/-- The outcome of the runtime loop: an accepted tree, the `failed()` exit with
the loop state at failure, or a thrown error (`Err.fuel` when the modelled
iteration fuel runs out). -/
inductive LROut (σ τ : Type) where
  | done (state : σ) (result : Result τ)
  | failed (ls : LoopSt σ τ)
  | threw (e : Err)

/-- The initial loop state of TS `mkParser`: LR stack `[0]`, empty buffer, no
`lastValid`, cursor at the entry position. -/
def initLoop (state : σ) (line offset : Nat) : LoopSt σ τ :=
  ⟨state, [0], [], none, line, offset⟩

/-- The runtime loop of TS `mkParser`: record `lastValid` at final states,
execute the current state's plan, and perform the decided Accept, Reduce or
Shift; Error and an undefined goto exit through `failed()`. -/
def lrRun (cfg : LRConfig σ τ) (lines : TextLines) : Nat → LoopSt σ τ → LROut σ τ
  | 0, _ => .threw .fuel
  | fuel + 1, ls0 =>
    match ls0.lrStates with
    | [] => .threw .internal
    | top :: _ =>
      let ls := if cfg.finalStates.contains top then
        { ls0 with lastValid := some (ls0.line, ls0.offset) } else ls0
      match cfg.plans.get? top with
      | none => .threw .internal
      | some plan =>
        match executePlan cfg ls.state lines ls.line ls.offset plan with
        | .error e => .threw e
        | .ok none => .failed ls
        | .ok (some (tokens, newState, action)) =>
          let ls := { ls with state := newState }
          match action with
          | .accept =>
            match ls.results with
            | [r] => .done ls.state r
            | _ => .threw .internal
          | .reduce ridx =>
            match cfg.rules.get? ridx with
            | none => .threw .internal
            | some rule =>
              let L := rule.rhs.length
              if L < ls.lrStates.length then
                match ls.lrStates.get? L with
                | none => .threw .internal
                | some top2 =>
                  match cfg.gotoMap top2 rule.lhs with
                  | none => .failed ls
                  | some g =>
                    let rhs := (ls.results.take L).reverse
                    match cfg.symsOf rule.lhs with
                    | some [nt] =>
                      let s := match cfg.nonterminals nt with
                        | some t => RType.labeled t
                        | none => RType.structural
                      let spanData :=
                        match rhs with
                        | [] => (ls.line, ls.offset, ls.line, ls.offset)
                        | r0 :: _ =>
                          match rhs.getLast? with
                          | some rl =>
                            (r0.startLine, r0.startColumnInclusive, rl.endLine,
                              rl.endColumnExclusive)
                          | none => (ls.line, ls.offset, ls.line, ls.offset)
                      let tree : Result τ :=
                        .mk s spanData.1 spanData.2.1 spanData.2.2.1 spanData.2.2.2 rhs
                      lrRun cfg lines fuel { ls with
                        results := tree :: ls.results.drop L,
                        lrStates := g :: ls.lrStates.drop L }
                    | _ => .threw .internal
              else .threw .internal
          | .shift st =>
            match tokens with
            | [t] =>
              lrRun cfg lines fuel { ls with
                lrStates := st :: ls.lrStates,
                results := t :: ls.results,
                line := t.endLine, offset := t.endColumnExclusive }
            | _ =>
              let e :=
                match tokens.getLast? with
                | some t => endOfResult t
                | none => (ls.line, ls.offset)
              let tree : Result τ := .mk .structural ls.line ls.offset e.1 e.2 tokens
              lrRun cfg lines fuel { ls with
                lrStates := st :: ls.lrStates,
                results := tree :: ls.results,
                line := e.1, offset := e.2 }

/-- The non-restarting part of TS `failed()`: an `invalid`-labeled partial tree
over the consumed region when `invalid` was provided, else parse failure. -/
def lrFailResult (cfg : LRConfig σ τ) (startLine startOffset : Nat) (ls : LoopSt σ τ) :
    ParseResult σ τ :=
  match cfg.invalid with
  | none => none
  | some v =>
    some (ls.state,
      .mk (match v with | none => .structural | some t => .labeled t)
        startLine startOffset ls.line ls.offset ls.results.reverse)

/-- TS `mkParser(false)`: the maximum-invalid (non-restarting) parser. -/
def maximumInvalid (cfg : LRConfig σ τ) (fuel : Nat) : Parser σ τ :=
  fun state lines line offset =>
    match lrRun cfg lines fuel (initLoop state line offset) with
    | .done s r => .ok (some (s, r))
    | .failed ls => .ok (lrFailResult cfg line offset ls)
    | .threw e => .error e

/-- TS `mkParser(true)`: the maximum-valid parser; on failure with a recorded
`lastValid`, rerun the non-restarting driver from the original entry on the
source truncated by `textlinesUntil` at `lastValid`. -/
def maximumValid (cfg : LRConfig σ τ) (fuel : Nat) : Parser σ τ :=
  fun state lines line offset =>
    match lrRun cfg lines fuel (initLoop state line offset) with
    | .done s r => .ok (some (s, r))
    | .failed ls =>
      match ls.lastValid with
      | some q => maximumInvalid cfg fuel state (textlinesUntil lines q.1 q.2) line offset
      | none => .ok (lrFailResult cfg line offset ls)
    | .threw e => .error e

/-! ### The syntax of combinator-built parsers -/

/-- The parsers built from the combinators named by the span-invariant claim:
`emptyP`, `failP`, `charP`, `newlineP`, `eofP`, `bolP`, `seqP`, `orP`, `repP`,
`literalP` and `sectionP` (whose body is a parser-valued function of the
source, the state and the bullet result, as in the source). -/
inductive PExp (σ τ : Type) where
  | empty
  | fail
  | char (predicate : TextChar → Bool)
  | newline
  | eof
  | bol
  | seq (ps : List (PExp σ τ))
  | orp (ps : List (PExp σ τ))
  | rep (ps : List (PExp σ τ))
  | literal (text : Txt) (type : RType τ)
  | sect (bulletP : PExp σ τ) (bodyP : TextLines → σ → Result τ → PExp σ τ)
      (spacesL indentationL : Lexer) (afterP : PExp σ τ)

/-- Interpret a combinator expression as the parser the source combinators
build. The fuel bounds both the recursion depth (the body of a section is
built at parse time) and the iterations of `repP`; exhaustion yields
`Err.fuel`, never a parse result. -/
def eval : Nat → PExp σ τ → Parser σ τ
  | 0, _ => fun _ _ _ _ => .error .fuel
  | fuel + 1, e =>
    match e with
    | .empty => emptyP
    | .fail => failP
    | .char p => charP p
    | .newline => newlineP
    | .eof => eofP
    | .bol => bolP
    | .seq ps => seqP (ps.map (eval fuel))
    | .orp ps => orP (ps.map (eval fuel))
    | .rep ps => repP (ps.map (eval fuel)) (fuel + 1)
    | .literal text t => literalP text t
    | .sect b body sL iL a =>
      sectionP (eval fuel b) (fun lines s r => eval fuel (body lines s r)) sL iL (eval fuel a)

/-! ### Infrastructure for the span invariants -/

@[simp] theorem except_bind_ok (a : α) (f : α → Except ε β) :
    (Except.ok a >>= f : Except ε β) = f a := rfl

@[simp] theorem except_bind_error (e : ε) (f : α → Except ε β) :
    (Except.error e >>= f : Except ε β) = .error e := rfl

@[simp] theorem except_pure (a : α) : (pure a : Except ε α) = .ok a := rfl

@[simp] theorem except_ok_ne_error (a : α) (e : ε) : (Except.ok a : Except ε α) ≠ .error e := by
  intro h; cases h

@[simp] theorem except_error_ne_ok (a : α) (e : ε) : (Except.error e : Except ε α) ≠ .ok a := by
  intro h; cases h

theorem except_ok_inj {a b : α} (h : (Except.ok a : Except ε α) = .ok b) : a = b := by
  cases h; rfl

/-- The cursor walk discipline between two bounds: the cursor starts at `lo`,
never passes a result's start, jumps to its end, and finally does not pass
`hi`. -/
def ChainBetween : Pos → List (Result τ) → Pos → Prop
  | lo, [], hi => posLe lo hi
  | lo, r :: rs, hi => posLe lo (startOfResult r) ∧ ChainBetween (endOfResult r) rs hi

/-- A result tree whose every node has a valid span and children in cursor
order inside the node's bounds. -/
inductive Good : Result τ → Prop where
  | mk {t : RType τ} {sl sc el ec : Nat} {cs : List (Result τ)} :
      posLe (sl, sc) (el, ec) →
      ChainBetween (sl, sc) cs (el, ec) →
      (∀ r ∈ cs, Good r) →
      Good (.mk t sl sc el ec cs)

/-- A result tree whose every node's span endpoints are valid positions of the
given text. -/
inductive AllValid (tl : TextLines) : Result τ → Prop where
  | mk {t : RType τ} {sl sc el ec : Nat} {cs : List (Result τ)} :
      tl.valid sl sc = true →
      tl.valid el ec = true →
      (∀ r ∈ cs, AllValid tl r) →
      AllValid tl (.mk t sl sc el ec cs)

theorem Good.validSpan {r : Result τ} (h : Good r) :
    posLe (startOfResult r) (endOfResult r) := by
  cases h; assumption

theorem Good.chain {r : Result τ} (h : Good r) :
    ChainBetween (startOfResult r) r.children (endOfResult r) := by
  cases h; assumption

theorem Good.childrenGood {r : Result τ} (h : Good r) : ∀ x ∈ r.children, Good x := by
  cases h; assumption

theorem AllValid.start {tl : TextLines} {r : Result τ} (h : AllValid tl r) :
    tl.valid r.startLine r.startColumnInclusive = true := by
  cases h; assumption

theorem AllValid.stop {tl : TextLines} {r : Result τ} (h : AllValid tl r) :
    tl.valid r.endLine r.endColumnExclusive = true := by
  cases h; assumption

theorem AllValid.childrenValid {tl : TextLines} {r : Result τ} (h : AllValid tl r) :
    ∀ x ∈ r.children, AllValid tl x := by
  cases h; assumption

theorem chainBetween_le {rs : List (Result τ)} :
    ∀ {lo hi : Pos}, ChainBetween lo rs hi →
      (∀ r ∈ rs, posLe (startOfResult r) (endOfResult r)) → posLe lo hi := by
  induction rs with
  | nil => intro lo hi h _; exact h
  | cons r rs ih =>
    intro lo hi h hv
    refine posLe_trans (posLe_trans h.1 (hv r (by simp))) ?_
    exact ih h.2 (fun x hx => hv x (by simp [hx]))

theorem chainBetween_weaken {rs : List (Result τ)} :
    ∀ {lo m hi : Pos}, ChainBetween lo rs m → posLe m hi → ChainBetween lo rs hi := by
  induction rs with
  | nil => intro lo m hi h hle; exact posLe_trans h hle
  | cons r rs ih => intro lo m hi h hle; exact ⟨h.1, ih h.2 hle⟩

theorem chainBetween_lower {rs : List (Result τ)} :
    ∀ {lo lo2 hi : Pos}, posLe lo lo2 → ChainBetween lo2 rs hi → ChainBetween lo rs hi := by
  induction rs with
  | nil => intro lo lo2 hi hle h; exact posLe_trans hle h
  | cons r rs _ => intro lo lo2 hi hle h; exact ⟨posLe_trans hle h.1, h.2⟩

theorem chainBetween_snoc {rs : List (Result τ)} :
    ∀ {lo m hi : Pos} {r : Result τ}, ChainBetween lo rs m → posLe m (startOfResult r) →
      endOfResult r = hi → ChainBetween lo (rs ++ [r]) hi := by
  induction rs with
  | nil =>
    intro lo m hi r h hle he
    exact ⟨posLe_trans h hle, he ▸ posLe_refl _⟩
  | cons x rs ih =>
    intro lo m hi r h hle he
    exact ⟨h.1, ih h.2 hle he⟩

theorem chainBetween_filter {rs : List (Result τ)} (keep : Result τ → Bool) :
    ∀ {lo hi : Pos}, ChainBetween lo rs hi →
      (∀ r ∈ rs, posLe (startOfResult r) (endOfResult r)) →
      ChainBetween lo (rs.filter keep) hi := by
  induction rs with
  | nil => intro lo hi h _; exact h
  | cons r rs ih =>
    intro lo hi h hv
    by_cases hk : keep r
    · simpa [List.filter, hk] using
        ⟨h.1, ih h.2 (fun x hx => hv x (by simp [hx]))⟩
    · have tail := ih h.2 (fun x hx => hv x (by simp [hx]))
      have lo_le : posLe lo (endOfResult r) := posLe_trans h.1 (hv r (by simp))
      simpa [List.filter, hk] using chainBetween_lower lo_le tail

/-- Soundness of a parser with respect to the span discipline: on success from
a valid entry position of a coherent text, the result starts at the entry, is
a good tree, and all its span endpoints are valid positions. -/
def Sound (p : Parser σ τ) : Prop :=
  ∀ (tl : TextLines) (s : σ) (l c : Nat) (s2 : σ) (r : Result τ),
    tl.WF → tl.valid l c = true → p s tl l c = .ok (some (s2, r)) →
    startOfResult r = (l, c) ∧ Good r ∧ AllValid tl r

theorem emptyP_sound : Sound (@emptyP σ τ) := by
  intro tl s l c s2 r _ hv h
  rw [emptyP, TextLines.assert_ok hv] at h
  simp only [except_bind_ok, except_pure] at h
  obtain ⟨rfl, rfl⟩ : s = s2 ∧ Result.mk .structural l c l c [] = r := by
    cases h; exact ⟨rfl, rfl⟩
  refine ⟨rfl, Good.mk (posLe_refl _) (posLe_refl _) (by simp), AllValid.mk hv hv (by simp)⟩

theorem failP_sound : Sound (@failP σ τ) := by
  intro tl s l c s2 r _ hv h
  rw [failP, TextLines.assert_ok hv] at h
  simp only [except_bind_ok, except_pure] at h
  cases h

theorem charP_sound (pred : TextChar → Bool) : Sound (@charP σ τ pred) := by
  intro tl s l c s2 r hwf hv h
  rw [charP, TextLines.assert_ok hv] at h
  simp only [except_bind_ok] at h
  split at h
  · cases h
  case isFalse hline =>
    split at h
    · cases h
    case isFalse hcol =>
      split at h
      · cases h
      case isFalse hpred =>
        simp only [except_pure] at h
        obtain ⟨rfl, rfl⟩ : s = s2 ∧ Result.mk .discarded l c l (c + 1) [] = r := by
          cases h; exact ⟨rfl, rfl⟩
        have hlt : l < tl.lineCount := by omega
        have hc1 : c + 1 ≤ (tl.lineAt l).length := by omega
        have hv2 : tl.valid l (c + 1) = true := (hwf l (c + 1)).mpr (Or.inl ⟨hlt, hc1⟩)
        refine ⟨rfl, Good.mk (Or.inr ⟨rfl, by omega⟩) (Or.inr ⟨rfl, by omega⟩) (by simp),
          AllValid.mk hv hv2 (by simp)⟩

theorem newlineP_sound : Sound (@newlineP σ τ) := by
  intro tl s l c s2 r hwf hv h
  rw [newlineP, TextLines.assert_ok hv] at h
  simp only [except_bind_ok] at h
  split at h
  case isTrue hcond =>
    simp only [except_pure] at h
    obtain ⟨rfl, rfl⟩ : s = s2 ∧ Result.mk .discarded l c (l + 1) 0 [] = r := by
      cases h; exact ⟨rfl, rfl⟩
    have hv2 : tl.valid (l + 1) 0 = true :=
      (hwf (l + 1) 0).mpr (Or.inl ⟨hcond.1, Nat.zero_le _⟩)
    exact ⟨rfl, Good.mk (Or.inl (by omega)) (Or.inl (by omega)) (by simp),
      AllValid.mk hv hv2 (by simp)⟩
  · cases h

theorem eofP_sound : Sound (@eofP σ τ) := by
  intro tl s l c s2 r _ hv h
  rw [eofP, TextLines.assert_ok hv] at h
  simp only [except_bind_ok] at h
  split at h
  · simp only [except_pure] at h
    obtain ⟨rfl, rfl⟩ : s = s2 ∧ Result.mk .discarded l c l c [] = r := by
      cases h; exact ⟨rfl, rfl⟩
    exact ⟨rfl, Good.mk (posLe_refl _) (posLe_refl _) (by simp), AllValid.mk hv hv (by simp)⟩
  · cases h

theorem Good.retype {t1 t2 : RType τ} {a b c d : Nat} {cs : List (Result τ)}
    (h : Good (.mk t1 a b c d cs : Result τ)) : Good (.mk t2 a b c d cs) := by
  cases h; exact .mk (by assumption) (by assumption) (by assumption)

theorem AllValid.ofRetype {tl : TextLines} {t1 t2 : RType τ} {a b c d : Nat}
    {cs : List (Result τ)} (h : AllValid tl (.mk t1 a b c d cs : Result τ)) :
    AllValid tl (.mk t2 a b c d cs) := by
  cases h; exact .mk (by assumption) (by assumption) (by assumption)

theorem seqPRun_sound {tl : TextLines} :
    ∀ (ps : List (Parser σ τ)), (∀ p ∈ ps, Sound p) →
    ∀ (lo : Pos) (s : σ) (l c : Nat) (acc : List (Result τ)) (s2 : σ) (l2 c2 : Nat)
      (cs2 : List (Result τ)),
      tl.WF →
      tl.valid l c = true →
      ChainBetween lo acc (l, c) →
      (∀ r ∈ acc, Good r ∧ AllValid tl r) →
      seqPRun tl ps s l c acc = .ok (some (s2, l2, c2, cs2)) →
      tl.valid l2 c2 = true ∧ posLe (l, c) (l2, c2) ∧ ChainBetween lo cs2 (l2, c2) ∧
        ∀ r ∈ cs2, Good r ∧ AllValid tl r := by
  intro ps
  induction ps with
  | nil =>
    intro _ lo s l c acc s2 l2 c2 cs2 _ hv hch hall h
    simp only [seqPRun, except_pure] at h
    obtain ⟨rfl, rfl, rfl, rfl⟩ : s = s2 ∧ l = l2 ∧ c = c2 ∧ acc = cs2 := by
      cases h; exact ⟨rfl, rfl, rfl, rfl⟩
    exact ⟨hv, posLe_refl _, hch, hall⟩
  | cons p ps ih =>
    intro hs lo s l c acc s2 l2 c2 cs2 hwf hv hch hall h
    rw [seqPRun] at h
    cases hp : p s tl l c with
    | error e => rw [hp] at h; cases h
    | ok pr =>
      rw [hp] at h
      simp only [except_bind_ok] at h
      cases pr with
      | none => simp only [except_pure] at h; cases h
      | some sr =>
        obtain ⟨s1, res⟩ := sr
        obtain ⟨hstart, hgood, hall1⟩ := hs p (by simp) tl s l c s1 res hwf hv hp
        have hvend : tl.valid res.endLine res.endColumnExclusive = true := hall1.stop
        have hspan : posLe (l, c) (endOfResult res) := by
          have := hgood.validSpan
          rw [hstart] at this
          exact this
        have hch2 : ChainBetween lo (acc ++ (if res.isDiscarded then [] else [res]))
            (res.endLine, res.endColumnExclusive) := by
          by_cases hd : res.isDiscarded
          · simpa [hd] using chainBetween_weaken hch hspan
          · simpa [hd] using chainBetween_snoc hch (hstart ▸ posLe_refl _) rfl
        have hall2 : ∀ r ∈ acc ++ (if res.isDiscarded then [] else [res]),
            Good r ∧ AllValid tl r := by
          intro r hr
          rcases List.mem_append.mp hr with hr | hr
          · exact hall r hr
          · by_cases hd : res.isDiscarded
            · simp [hd] at hr
            · simp [hd] at hr
              exact hr ▸ ⟨hgood, hall1⟩
        obtain ⟨hv2, hle2, hch3, hall3⟩ :=
          ih (fun q hq => hs q (by simp [hq])) lo s1 res.endLine res.endColumnExclusive _
            s2 l2 c2 cs2 hwf hvend hch2 hall2 h
        exact ⟨hv2, posLe_trans hspan hle2, hch3, hall3⟩

theorem seqP_cons_cons (p q : Parser σ τ) (ps : List (Parser σ τ)) (state : σ)
    (lines : TextLines) (line column : Nat) :
    seqP (p :: q :: ps) state lines line column =
      (lines.assert line column >>= fun _ =>
        seqPRun lines (p :: q :: ps) state line column [] >>= fun o =>
          match o with
          | none => pure none
          | some (state2, line2, column2, children) =>
            pure (some (state2, .mk .structural line column line2 column2 children))) := rfl

theorem seqP_sound {ps : List (Parser σ τ)} (hs : ∀ p ∈ ps, Sound p) : Sound (seqP ps) := by
  match ps with
  | [] => exact emptyP_sound
  | [p] => exact hs p (by simp)
  | p :: q :: ps' =>
    intro tl s l c s2 r hwf hv h
    rw [seqP_cons_cons] at h
    simp only [TextLines.assert_ok hv, except_bind_ok] at h
    cases hrun : seqPRun tl (p :: q :: ps') s l c [] with
    | error e => rw [hrun] at h; cases h
    | ok pr =>
      rw [hrun] at h
      simp only [except_bind_ok] at h
      cases pr with
      | none => simp only [except_pure] at h; cases h
      | some out =>
        obtain ⟨s3, l3, c3, cs3⟩ := out
        simp only [except_pure] at h
        obtain ⟨rfl, rfl⟩ : s3 = s2 ∧ Result.mk .structural l c l3 c3 cs3 = r := by
          cases h; exact ⟨rfl, rfl⟩
        obtain ⟨hv3, hle3, hch3, hall3⟩ :=
          seqPRun_sound (p :: q :: ps') hs (l, c) s l c [] s3 l3 c3 cs3 hwf hv
            (posLe_refl _) (by simp) hrun
        exact ⟨rfl, Good.mk hle3 hch3 (fun x hx => (hall3 x hx).1),
          AllValid.mk hv hv3 (fun x hx => (hall3 x hx).2)⟩

theorem orPRun_sound {tl : TextLines} :
    ∀ (ps : List (Parser σ τ)), (∀ p ∈ ps, Sound p) →
    ∀ (s : σ) (l c : Nat) (s2 : σ) (r : Result τ),
      tl.WF → tl.valid l c = true →
      orPRun tl ps s l c = .ok (some (s2, r)) →
      startOfResult r = (l, c) ∧ Good r ∧ AllValid tl r := by
  intro ps
  induction ps with
  | nil => intro _ s l c s2 r _ _ h; simp only [orPRun, except_pure] at h; cases h
  | cons p ps ih =>
    intro hs s l c s2 r hwf hv h
    rw [orPRun] at h
    cases hp : p s tl l c with
    | error e => rw [hp] at h; cases h
    | ok pr =>
      rw [hp] at h
      simp only [except_bind_ok] at h
      cases pr with
      | none => exact ih (fun q hq => hs q (by simp [hq])) s l c s2 r hwf hv h
      | some sr =>
        obtain ⟨s1, res⟩ := sr
        simp only [except_pure] at h
        obtain ⟨rfl, rfl⟩ : s1 = s2 ∧ res = r := by cases h; exact ⟨rfl, rfl⟩
        exact hs p (by simp) tl s l c s1 res hwf hv hp

theorem orP_sound {ps : List (Parser σ τ)} (hs : ∀ p ∈ ps, Sound p) : Sound (orP ps) := by
  intro tl s l c s2 r hwf hv h
  rw [orP, TextLines.assert_ok hv] at h
  simp only [except_bind_ok] at h
  exact orPRun_sound ps hs s l c s2 r hwf hv h

theorem repPRun_sound {tl : TextLines} {p : Parser σ τ} (hp : Sound p)
    {sL sC : Nat} (hwf : tl.WF) (hvs : tl.valid sL sC = true) :
    ∀ (fuel : Nat) (s : σ) (l c : Nat) (acc : List (Result τ)) (s2 : σ) (r : Result τ),
      tl.valid l c = true →
      ChainBetween (sL, sC) acc (l, c) →
      (∀ x ∈ acc, Good x ∧ AllValid tl x) →
      repPRun p tl sL sC fuel s l c acc = .ok (some (s2, r)) →
      startOfResult r = (sL, sC) ∧ Good r ∧ AllValid tl r := by
  intro fuel
  induction fuel with
  | zero => intro s l c acc s2 r _ _ _ h; cases h
  | succ fuel ih =>
    intro s l c acc s2 r hv hch hall h
    rw [repPRun] at h
    cases hrun : p s tl l c with
    | error e => rw [hrun] at h; cases h
    | ok pr =>
      rw [hrun] at h
      simp only [except_bind_ok] at h
      cases pr with
      | none =>
        simp only [except_pure] at h
        obtain ⟨rfl, rfl⟩ : s = s2 ∧ Result.mk .structural sL sC l c acc = r := by
          cases h; exact ⟨rfl, rfl⟩
        have hle : posLe (sL, sC) (l, c) :=
          chainBetween_le hch (fun x hx => (hall x hx).1.validSpan)
        exact ⟨rfl, Good.mk hle hch (fun x hx => (hall x hx).1),
          AllValid.mk hvs hv (fun x hx => (hall x hx).2)⟩
      | some sr =>
        obtain ⟨s1, res⟩ := sr
        obtain ⟨hstart, hgood, hall1⟩ := hp tl s l c s1 res hwf hv hrun
        have hvend : tl.valid res.endLine res.endColumnExclusive = true := hall1.stop
        have hspan : posLe (l, c) (endOfResult res) := by
          have := hgood.validSpan
          rw [hstart] at this
          exact this
        have hch2 : ChainBetween (sL, sC) (acc ++ (if res.isDiscarded then [] else [res]))
            (res.endLine, res.endColumnExclusive) := by
          by_cases hd : res.isDiscarded
          · simpa [hd] using chainBetween_weaken hch hspan
          · simpa [hd] using chainBetween_snoc hch (hstart ▸ posLe_refl _) rfl
        have hall2 : ∀ x ∈ acc ++ (if res.isDiscarded then [] else [res]),
            Good x ∧ AllValid tl x := by
          intro x hx
          rcases List.mem_append.mp hx with hx | hx
          · exact hall x hx
          · by_cases hd : res.isDiscarded
            · simp [hd] at hx
            · simp [hd] at hx
              exact hx ▸ ⟨hgood, hall1⟩
        exact ih s1 res.endLine res.endColumnExclusive _ s2 r hvend hch2 hall2 h

theorem repP_sound {ps : List (Parser σ τ)} (hs : ∀ p ∈ ps, Sound p) (fuel : Nat) :
    Sound (repP ps fuel) := by
  intro tl s l c s2 r hwf hv h
  rw [repP] at h
  simp only at h
  rw [TextLines.assert_ok hv] at h
  simp only [except_bind_ok] at h
  exact repPRun_sound (seqP_sound hs) hwf hv fuel s l c [] s2 r hv (posLe_refl _) (by simp) h

theorem setTypeP_sound {p : Parser σ τ} (hp : Sound p) (t : RType τ) :
    Sound (setTypeP t p) := by
  intro tl s l c s2 r hwf hv h
  rw [setTypeP, modifyTypeP, modifyResultP, modifyParseResultP] at h
  cases hp0 : p s tl l c with
  | error e => rw [hp0] at h; cases h
  | ok pr =>
    rw [hp0] at h
    simp only [except_bind_ok, except_pure] at h
    cases pr with
    | none => cases h
    | some sr =>
      obtain ⟨s1, res⟩ := sr
      obtain ⟨hstart, hgood, hall⟩ := hp tl s l c s1 res hwf hv hp0
      cases res with
      | mk t0 a b c0 d cs =>
        obtain ⟨rfl, rfl⟩ : s1 = s2 ∧ (Result.mk t a b c0 d cs : Result τ) = r := by
          cases h; exact ⟨rfl, rfl⟩
        exact ⟨hstart, hgood.retype, hall.ofRetype⟩

theorem literalP_sound (text : Txt) (t : RType τ) : Sound (@literalP τ σ text t) := by
  rw [literalP]
  exact setTypeP_sound (seqP_sound (by
    intro q hq
    obtain ⟨ch, _, rfl⟩ := List.mem_map.mp hq
    exact charP_sound _)) t

theorem bolP_sound : Sound (@bolP σ τ) := by
  intro tl s l c s2 r _ hv h
  rw [bolP, TextLines.assert_ok hv] at h
  simp only [except_bind_ok] at h
  split at h
  · simp only [except_pure] at h
    obtain ⟨rfl, rfl⟩ : s = s2 ∧ Result.mk .discarded l c l c [] = r := by
      cases h; exact ⟨rfl, rfl⟩
    exact ⟨rfl, Good.mk (posLe_refl _) (posLe_refl _) (by simp), AllValid.mk hv hv (by simp)⟩
  · cases h

theorem AllValid.mono {tl tl2 : TextLines}
    (himp : ∀ l c, tl2.valid l c = true → tl.valid l c = true) :
    ∀ {r : Result τ}, AllValid tl2 r → AllValid tl r := by
  intro r h
  induction h with
  | mk hs he _ ih => exact .mk (himp _ _ hs) (himp _ _ he) ih

/-! ### Properties of the window constructions -/

theorem cutoffScan_bounds {tl : TextLines} {f : Txt → Bool} :
    ∀ (n l0 cut : Nat), cutoffScan tl f l0 n = some cut → l0 ≤ cut ∧ cut < l0 + n := by
  intro n
  induction n with
  | zero => intro l0 cut h; cases h
  | succ n ih =>
    intro l0 cut h
    rw [cutoffScan] at h
    split at h
    · obtain ⟨h1, h2⟩ := ih (l0 + 1) cut h
      omega
    · cases h; omega

theorem cutoffAfterIndentation_props {tl : TextLines} (hwf : tl.WF) {line : Nat}
    {f : Txt → Bool} {tl2 : TextLines}
    (hv : tl.valid line 0 = true)
    (h : cutoffAfterIndentation tl line f = .ok tl2) :
    tl2.WF ∧ (∀ l c, tl2.valid l c = true → tl.valid l c = true) ∧
      tl2.valid line 0 = true := by
  rw [cutoffAfterIndentation, TextLines.assert_ok hv] at h
  simp only [except_bind_ok] at h
  cases hscan : cutoffScan tl f (line + 1) (tl.lineCount - (line + 1)) with
  | none =>
    rw [hscan] at h
    simp only [except_pure] at h
    cases h
    exact ⟨hwf, fun _ _ hx => hx, hv⟩
  | some cut =>
    rw [hscan] at h
    simp only [except_pure] at h
    cases h
    obtain ⟨hge, hlt⟩ := cutoffScan_bounds _ _ _ hscan
    have hcutlt : cut < tl.lineCount := by omega
    refine ⟨?_, ?_, ?_⟩
    · intro l c
      simp only [Bool.and_eq_true, decide_eq_true_eq]
      constructor
      · rintro ⟨hval, hlc⟩
        rcases (hwf l c).mp hval with ⟨h1, h2⟩ | ⟨h1, _, _⟩
        · left
          refine ⟨hlc, ?_⟩
          rw [if_neg (by omega)]
          exact h2
        · omega
      · rintro (⟨hlc, hlen⟩ | ⟨h0, _, _⟩)
        · have hl : l < tl.lineCount := by omega
          rw [if_neg (by omega)] at hlen
          exact ⟨(hwf l c).mpr (Or.inl ⟨hl, hlen⟩), hlc⟩
        · omega
    · intro l c hv2
      simp only [Bool.and_eq_true] at hv2
      exact hv2.1
    · simp only [Bool.and_eq_true, decide_eq_true_eq]
      exact ⟨hv, by omega⟩

theorem TextLinesWindow.toTextLines_WF (w : TextLinesWindow) : w.toTextLines.WF := by
  intro l c
  simp only [TextLinesWindow.toTextLines]
  by_cases h : l < w.lines.length
  · rw [if_pos h]
    simp only [decide_eq_true_eq]
    omega
  · rw [if_neg h]
    simp only [decide_eq_true_eq]
    omega

/-- What the construction of a cutout guarantees: the window is anchored at
the entry line, its first line starts at or after the entry column, and each
window line is a tail of the corresponding source line. The empty view is
anchored at the (valid) entry position. -/
def CutoutSpec (tl : TextLines) (line column : Nat) : Cutout → Prop
  | .empty sl sc => sl = line ∧ sc = column ∧ tl.valid line column = true
  | .window w =>
      w.startLine = line ∧
      w.columns.length = w.lines.length ∧
      w.lines.length > 0 ∧
      column ≤ w.columns.getD 0 0 ∧
      ∀ i, i < w.lines.length →
        line + i < tl.lineCount ∧
        w.columns.getD i 0 ≤ (tl.lineAt (line + i)).length ∧
        w.lines.getD i [] = (tl.lineAt (line + i)).drop (w.columns.getD i 0)

theorem cutoutLoop_props {tl : TextLines} {sr : Lexer} :
    ∀ (n i : Nat) (ls : List Txt) (cs : List Nat),
      cutoutLoop tl sr i n = .ok (ls, cs) →
      ls.length = cs.length ∧ ls.length ≤ n ∧
        ∀ j, j < ls.length →
          cs.getD j 0 ≤ (tl.lineAt (i + j)).length ∧
          ls.getD j [] = (tl.lineAt (i + j)).drop (cs.getD j 0) := by
  intro n
  induction n with
  | zero =>
    intro i ls cs h
    simp only [cutoutLoop, except_pure] at h
    obtain ⟨rfl, rfl⟩ : [] = ls ∧ [] = cs := by cases h; exact ⟨rfl, rfl⟩
    simp
  | succ n ih =>
    intro i ls cs h
    rw [cutoutLoop] at h
    split at h
    · simp only [except_pure] at h
      obtain ⟨rfl, rfl⟩ : [] = ls ∧ [] = cs := by cases h; exact ⟨rfl, rfl⟩
      simp
    case isFalse hneg =>
      rw [sliceFrom] at h
      split at h
      case isTrue hlen =>
        simp only [except_bind_ok] at h
        cases hrec : cutoutLoop tl sr (i + 1) n with
        | error e => rw [hrec] at h; cases h
        | ok out =>
          rw [hrec] at h
          obtain ⟨ls', cs'⟩ := out
          simp only [except_bind_ok, except_pure] at h
          obtain ⟨rfl, rfl⟩ :
              (tl.lineAt i).drop (sr (tl.lineAt i) 0).toNat :: ls' = ls ∧
                (sr (tl.lineAt i) 0).toNat :: cs' = cs := by
            cases h; exact ⟨rfl, rfl⟩
          obtain ⟨hlen', hle', hall'⟩ := ih (i + 1) ls' cs' hrec
          refine ⟨by simp [hlen'], by simp; omega, ?_⟩
          intro j hj
          cases j with
          | zero => exact ⟨by simpa using hlen, by simp⟩
          | succ j =>
            simp only [List.getD_cons_succ]
            have := hall' j (by simpa using hj)
            have harith : i + 1 + j = i + (j + 1) := by omega
            rw [harith] at this
            exact this
      · cases h

theorem cutoutTextLines_props {tl : TextLines} (hwf : tl.WF) {line column : Nat}
    {sf sr : Lexer} {co : Cutout}
    (hv : tl.valid line column = true)
    (h : cutoutTextLines tl line column sf sr = .ok co) :
    co.toTextLines.WF ∧ co.toTextLines.valid 0 0 = true ∧ CutoutSpec tl line column co := by
  rw [cutoutTextLines, TextLines.assert_ok hv] at h
  simp only [except_bind_ok] at h
  split at h
  case isTrue h0 =>
    simp only [except_pure] at h
    cases h
    refine ⟨?_, by simp [Cutout.toTextLines], ?_⟩
    · intro l c
      show decide (l = 0 ∧ c = 0) = true ↔ _
      rw [decide_eq_true_eq]
      constructor
      · rintro ⟨rfl, rfl⟩
        exact Or.inr ⟨rfl, rfl, rfl⟩
      · rintro (⟨h1, _⟩ | ⟨_, h2, h3⟩)
        · exact absurd h1 (Nat.not_lt_zero l)
        · exact ⟨h2, h3⟩
    · exact ⟨rfl, rfl, hv⟩
  case isFalse h0 =>
    have hline : line < tl.lineCount := by
      rcases (hwf line column).mp hv with ⟨h1, _⟩ | ⟨h1, _, _⟩
      · exact h1
      · omega
    rw [sliceFrom] at h
    split at h
    case isTrue hlen =>
      simp only [except_bind_ok] at h
      cases hloop : cutoutLoop tl sr (line + 1) (tl.lineCount - (line + 1)) with
      | error e => rw [hloop] at h; cases h
      | ok out =>
        rw [hloop] at h
        obtain ⟨ls, cs⟩ := out
        simp only [except_bind_ok, except_pure] at h
        cases h
        obtain ⟨hlen', hle', hall'⟩ := cutoutLoop_props _ _ ls cs hloop
        have hwfw : (TextLinesWindow.mk line
            ((tl.lineAt line).drop (column + (max (sf (tl.lineAt line) column) 0).toNat) :: ls)
            ((column + (max (sf (tl.lineAt line) column) 0).toNat) :: cs)).toTextLines.WF :=
          TextLinesWindow.toTextLines_WF _
        have hmain : ∀ i, i < ((tl.lineAt line).drop
            (column + (max (sf (tl.lineAt line) column) 0).toNat) :: ls).length →
            line + i < tl.lineCount ∧
            (((column + (max (sf (tl.lineAt line) column) 0).toNat) :: cs).getD i 0 ≤
              (tl.lineAt (line + i)).length) ∧
            (((tl.lineAt line).drop
              (column + (max (sf (tl.lineAt line) column) 0).toNat) :: ls).getD i [] =
              (tl.lineAt (line + i)).drop
                (((column + (max (sf (tl.lineAt line) column) 0).toNat) :: cs).getD i 0)) := by
          intro i hi
          cases i with
          | zero => exact ⟨by simpa using hline, by simpa using hlen, by simp⟩
          | succ j =>
            simp only [List.getD_cons_succ]
            simp only [List.length_cons] at hi
            have hj : j < ls.length := by omega
            have := hall' j hj
            have harith : line + 1 + j = line + (j + 1) := by omega
            rw [harith] at this
            refine ⟨?_, this.1, this.2⟩
            omega
        exact ⟨hwfw, by simp [Cutout.toTextLines, TextLinesWindow.toTextLines],
          rfl, by simp [hlen'], by simp, by simp, hmain⟩
    · cases h

/-- The pure coordinate translation of a cutout's `shift`. -/
def Cutout.shiftPos : Cutout → Pos → Pos
  | .window w, p => (p.1 + w.startLine, p.2 + w.columns.getD p.1 0)
  | .empty sl sc, _ => (sl, sc)

theorem Cutout.shift_ok_valid {co : Cutout} {l c : Nat} {p : Pos}
    (h : co.shift l c = .ok p) :
    co.toTextLines.valid l c = true ∧ p = co.shiftPos (l, c) := by
  rw [Cutout.shift.eq_def, TextLines.assert] at h
  split at h
  case isTrue hval =>
    simp only [except_bind_ok] at h
    cases co with
    | window w =>
      simp only [except_pure] at h
      cases h
      exact ⟨hval, rfl⟩
    | empty sl sc =>
      simp only [except_pure] at h
      cases h
      exact ⟨hval, rfl⟩
  · cases h

theorem Cutout.shift_eq_of_valid {co : Cutout} {l c : Nat}
    (hval : co.toTextLines.valid l c = true) :
    co.shift l c = .ok (co.shiftPos (l, c)) := by
  rw [Cutout.shift.eq_def, TextLines.assert, if_pos hval]
  cases co <;> rfl

theorem Cutout.shiftPos_mono {co : Cutout} {p q : Pos}
    (hle : posLe p q) : posLe (co.shiftPos p) (co.shiftPos q) := by
  cases co with
  | empty sl sc => exact posLe_refl _
  | window w =>
    rcases hle with h | ⟨h1, h2⟩
    · exact Or.inl (by simp [Cutout.shiftPos]; omega)
    · obtain ⟨l, c⟩ := p
      obtain ⟨l', c'⟩ := q
      simp only at h1 h2
      subst h1
      exact Or.inr ⟨rfl, by simp [Cutout.shiftPos]; omega⟩

theorem CutoutSpec.shift_valid {tl : TextLines} {line column : Nat} {co : Cutout}
    (hwf : tl.WF) (hspec : CutoutSpec tl line column co) {l c : Nat}
    (hval : co.toTextLines.valid l c = true) :
    tl.valid (co.shiftPos (l, c)).1 (co.shiftPos (l, c)).2 = true ∧
      posLe (line, column) (co.shiftPos (l, c)) := by
  cases co with
  | empty sl sc =>
    obtain ⟨rfl, rfl, hvlc⟩ := hspec
    exact ⟨hvlc, posLe_refl _⟩
  | window w =>
    obtain ⟨rfl, hclen, hpos, hcol0, hspec⟩ := hspec
    simp only [Cutout.toTextLines, TextLinesWindow.toTextLines] at hval
    have hl : l < w.lines.length := by
      by_cases h : l < w.lines.length
      · exact h
      · rw [if_neg h] at hval
        simp only [decide_eq_true_eq] at hval
        omega
    rw [if_pos hl] at hval
    simp only [decide_eq_true_eq] at hval
    obtain ⟨hlc, hcle, heq⟩ := hspec l hl
    have hlendrop : (w.lines.getD l []).length = (tl.lineAt (w.startLine + l)).length -
        w.columns.getD l 0 := by
      rw [heq, List.length_drop]
    refine ⟨?_, ?_⟩
    · refine (hwf _ _).mpr (Or.inl ⟨?_, ?_⟩)
      · simp only [Cutout.shiftPos]
        omega
      · simp only [Cutout.shiftPos]
        have : c ≤ (tl.lineAt (w.startLine + l)).length - w.columns.getD l 0 := by
          rw [← hlendrop]; exact hval
        have harith : l + w.startLine = w.startLine + l := by omega
        rw [harith]
        omega
    · simp only [Cutout.shiftPos]
      rcases Nat.eq_zero_or_pos l with rfl | hl0
      · exact Or.inr ⟨by omega, by omega⟩
      · exact Or.inl (by omega)

theorem forall2_mem_right {α β : Type} {P : α → β → Prop} :
    ∀ {xs : List α} {ys : List β}, List.Forall₂ P xs ys → ∀ y ∈ ys, ∃ x ∈ xs, P x y := by
  intro xs ys h
  induction h with
  | nil => simp
  | cons hx _ ih =>
    intro y hy
    rcases List.mem_cons.mp hy with rfl | hy
    · exact ⟨_, by simp, hx⟩
    · obtain ⟨x, hmem, hpx⟩ := ih y hy
      exact ⟨x, by simp [hmem], hpx⟩

theorem chainBetween_shift {co : Cutout} :
    ∀ {rs rs2 : List (Result τ)},
      List.Forall₂ (fun (r r2 : Result τ) =>
        startOfResult r2 = co.shiftPos (startOfResult r) ∧
        endOfResult r2 = co.shiftPos (endOfResult r)) rs rs2 →
      ∀ {lo hi : Pos}, ChainBetween lo rs hi →
      ChainBetween (co.shiftPos lo) rs2 (co.shiftPos hi) := by
  intro rs rs2 hf
  induction hf with
  | nil => intro lo hi hch; exact Cutout.shiftPos_mono hch
  | cons hx _ ih =>
    intro lo hi hch
    refine ⟨?_, ?_⟩
    · rw [hx.1]
      exact Cutout.shiftPos_mono hch.1
    · rw [hx.2]
      exact ih hch.2

mutual

theorem shiftResult_sound {tl : TextLines} {line column : Nat} {co : Cutout}
    (hwf : tl.WF) (hspec : CutoutSpec tl line column co) :
    ∀ (r r2 : Result τ), shiftResult co r = .ok r2 →
      (startOfResult r2 = co.shiftPos (startOfResult r) ∧
        endOfResult r2 = co.shiftPos (endOfResult r)) ∧
      AllValid tl r2 ∧ (Good r → Good r2)
  | .mk t sl sc el ec cs, r2, h => by
    rw [shiftResult] at h
    cases h1 : co.shift sl sc with
    | error e => rw [h1] at h; cases h
    | ok p1 =>
      rw [h1] at h
      simp only [except_bind_ok] at h
      cases h2 : co.shift el ec with
      | error e => rw [h2] at h; cases h
      | ok p2 =>
        rw [h2] at h
        simp only [except_bind_ok] at h
        cases h3 : shiftResultList co cs with
        | error e => rw [h3] at h; cases h
        | ok cs2 =>
          rw [h3] at h
          simp only [except_pure] at h
          obtain rfl : Result.mk t p1.1 p1.2 p2.1 p2.2 cs2 = r2 := by
            cases h; rfl
          obtain ⟨hv1, hp1⟩ := Cutout.shift_ok_valid h1
          obtain ⟨hv2, hp2⟩ := Cutout.shift_ok_valid h2
          have hlist := shiftResultList_sound hwf hspec cs cs2 h3
          have hpairs : List.Forall₂ (fun (r r2 : Result τ) =>
              startOfResult r2 = co.shiftPos (startOfResult r) ∧
              endOfResult r2 = co.shiftPos (endOfResult r)) cs cs2 :=
            hlist.imp (fun _ _ hx => hx.1)
          refine ⟨⟨by simp [startOfResult, hp1], by simp [endOfResult, hp2]⟩, ?_, ?_⟩
          · refine AllValid.mk ?_ ?_ ?_
            · have := (CutoutSpec.shift_valid hwf hspec hv1).1
              rw [← hp1] at this
              exact this
            · have := (CutoutSpec.shift_valid hwf hspec hv2).1
              rw [← hp2] at this
              exact this
            · intro x hx
              obtain ⟨y, _, hy⟩ := forall2_mem_right hlist x hx
              exact hy.2.1
          · intro hg
            cases hg with
            | mk hsp hch hcs =>
              refine Good.mk ?_ ?_ ?_
              · have := @Cutout.shiftPos_mono co (sl, sc) (el, ec) hsp
                rw [← hp1, ← hp2] at this
                exact this
              · have := chainBetween_shift hpairs hch
                rw [← hp1, ← hp2] at this
                exact this
              · intro x hx
                obtain ⟨y, hymem, hy⟩ := forall2_mem_right hlist x hx
                exact hy.2.2 (hcs y hymem)

theorem shiftResultList_sound {tl : TextLines} {line column : Nat} {co : Cutout}
    (hwf : tl.WF) (hspec : CutoutSpec tl line column co) :
    ∀ (rs rs2 : List (Result τ)), shiftResultList co rs = .ok rs2 →
      List.Forall₂ (fun (r r2 : Result τ) =>
        (startOfResult r2 = co.shiftPos (startOfResult r) ∧
          endOfResult r2 = co.shiftPos (endOfResult r)) ∧
        AllValid tl r2 ∧ (Good r → Good r2)) rs rs2
  | [], rs2, h => by
    rw [shiftResultList] at h
    simp only [except_pure] at h
    obtain rfl : ([] : List (Result τ)) = rs2 := by cases h; rfl
    exact .nil
  | r :: rs, rs2, h => by
    rw [shiftResultList] at h
    cases h1 : shiftResult co r with
    | error e => rw [h1] at h; cases h
    | ok r2 =>
      rw [h1] at h
      simp only [except_bind_ok] at h
      cases h2 : shiftResultList co rs with
      | error e => rw [h2] at h; cases h
      | ok rs2' =>
        rw [h2] at h
        simp only [except_bind_ok, except_pure] at h
        obtain rfl : r2 :: rs2' = rs2 := by cases h; rfl
        exact .cons (shiftResult_sound hwf hspec r r2 h1) (shiftResultList_sound hwf hspec rs rs2' h2)

end

theorem joinWalk_ok_of_chain : ∀ (rs : List (Result τ)) {lo hi : Pos},
    ChainBetween lo rs hi →
    joinWalk lo hi rs = .ok (rs.filter (fun r => !r.isDiscarded)) := by
  intro rs
  induction rs with
  | nil =>
    intro lo hi h
    obtain ⟨a, b⟩ := lo
    obtain ⟨c, d⟩ := hi
    rw [joinWalk, if_pos (resultCoordinatesAreValid_iff.mpr h)]
    rfl
  | cons r rs ih =>
    intro lo hi h
    obtain ⟨a, b⟩ := lo
    have h1 : resultCoordinatesAreValid a b r.startLine r.startColumnInclusive = true :=
      resultCoordinatesAreValid_iff.mpr h.1
    rw [joinWalk, if_pos h1, ih h.2]
    simp only [except_bind_ok, except_pure]
    by_cases hd : r.isDiscarded
    · simp [List.filter_cons, hd]
    · simp [List.filter_cons, hd]

theorem joinResults_pos_pos {rs : List (Result τ)} {t : RType τ} {st en : Pos}
    (hch : ChainBetween st rs en) :
    joinResults rs t (some st) (some en) =
      .ok (.mk t st.1 st.2 en.1 en.2 (rs.filter (fun r => !r.isDiscarded))) := by
  rw [joinResults, if_neg (by simp)]
  simp only
  rw [joinWalk_ok_of_chain rs hch]
  simp

theorem joined_good {rs : List (Result τ)} {t : RType τ} {st en : Pos}
    (hch : ChainBetween st rs en) (hg : ∀ r ∈ rs, Good r) :
    Good (.mk t st.1 st.2 en.1 en.2 (rs.filter (fun r => !r.isDiscarded)) : Result τ) := by
  refine Good.mk ?_ ?_ ?_
  · exact chainBetween_le hch (fun r hr => (hg r hr).validSpan)
  · exact chainBetween_filter _ hch (fun r hr => (hg r hr).validSpan)
  · intro x hx
    exact hg x (List.mem_of_mem_filter hx)

theorem joined_allValid {tl : TextLines} {rs : List (Result τ)} {t : RType τ} {st en : Pos}
    (hs : tl.valid st.1 st.2 = true) (he : tl.valid en.1 en.2 = true)
    (ha : ∀ r ∈ rs, AllValid tl r) :
    AllValid tl (.mk t st.1 st.2 en.1 en.2 (rs.filter (fun r => !r.isDiscarded)) : Result τ) :=
  .mk hs he (fun x hx => ha x (List.mem_of_mem_filter hx))

theorem sectionP_sound {bulletP : Parser σ τ} {bodyP : TextLines → σ → Result τ → Parser σ τ}
    {spacesL indentationL : Lexer} {afterP : Parser σ τ}
    (hb : Sound bulletP) (hbody : ∀ lines s r, Sound (bodyP lines s r)) (ha : Sound afterP) :
    Sound (sectionP bulletP bodyP spacesL indentationL afterP) := by
  intro tl s l c s2 r hwf hv h
  simp only [sectionP, TextLines.assert_ok hv, except_bind_ok] at h
  split at h
  · simp only [except_pure] at h; cases h
  case isFalse hcpos =>
    have hc : c = 0 := by omega
    subst hc
    cases hcut : cutoffAfterIndentation tl l (fun text => spacesL text 0 > 0) with
    | error e => rw [hcut] at h; cases h
    | ok bl =>
      rw [hcut] at h
      simp only [except_bind_ok] at h
      obtain ⟨hblwf, hblimp, hblv⟩ := cutoffAfterIndentation_props hwf hv hcut
      cases hbul : bulletP s bl l 0 with
      | error e => rw [hbul] at h; cases h
      | ok pr =>
        rw [hbul] at h
        simp only [except_bind_ok] at h
        split at h
        · simp only [except_pure] at h; cases h
        case h_2 s1 bres =>
          obtain ⟨hbstart, hbgood, hbave⟩ := hb bl s l 0 s1 bres hblwf hblv hbul
          have hbav : AllValid tl bres := AllValid.mono hblimp hbave
          have hv1 : tl.valid bres.endLine bres.endColumnExclusive = true := hbav.stop
          cases hco : cutoutTextLines tl bres.endLine bres.endColumnExclusive
              spacesL indentationL with
          | error e => rw [hco] at h; cases h
          | ok w =>
            rw [hco] at h
            simp only [except_bind_ok] at h
            obtain ⟨hwwf, hw00, hwspec⟩ := cutoutTextLines_props hwf hv1 hco
            cases hbody0 : bodyP tl s1 bres s1 w.toTextLines 0 0 with
            | error e => rw [hbody0] at h; cases h
            | ok pb =>
              rw [hbody0] at h
              simp only [except_bind_ok] at h
              split at h
              · simp only [except_pure] at h; cases h
              case h_2 s2' b0 =>
                obtain ⟨hb0start, hb0good, _⟩ :=
                  hbody tl s1 bres w.toTextLines s1 0 0 s2' b0 hwwf hw00 hbody0
                cases hshift : shiftResult w b0 with
                | error e => rw [hshift] at h; cases h
                | ok bodyRes =>
                  rw [hshift] at h
                  simp only [except_bind_ok] at h
                  obtain ⟨⟨hsstart, hsend⟩, hsav, hsgood⟩ :=
                    shiftResult_sound hwf hwspec b0 bodyRes hshift
                  have hbodyGood : Good bodyRes := hsgood hb0good
                  have hge : posLe (bres.endLine, bres.endColumnExclusive)
                      (startOfResult bodyRes) := by
                    rw [hsstart, hb0start]
                    exact (CutoutSpec.shift_valid hwf hwspec hw00).2
                  have hv2 : tl.valid bodyRes.endLine bodyRes.endColumnExclusive = true :=
                    hsav.stop
                  cases hafter : afterP s2' tl bodyRes.endLine bodyRes.endColumnExclusive with
                  | error e => rw [hafter] at h; cases h
                  | ok pa =>
                    rw [hafter] at h
                    simp only [except_bind_ok] at h
                    split at h
                    case h_1 =>
                      have hch : ChainBetween (l, 0) [bres, bodyRes]
                          (bodyRes.endLine, bodyRes.endColumnExclusive) := by
                        refine ⟨?_, hge, posLe_refl _⟩
                        rw [hbstart]
                        exact posLe_refl _
                      rw [joinResults_pos_pos hch] at h
                      simp only [except_bind_ok, except_pure] at h
                      obtain ⟨rfl, rfl⟩ :
                          s2' = s2 ∧ (Result.mk RType.structural l 0 bodyRes.endLine
                            bodyRes.endColumnExclusive
                            ([bres, bodyRes].filter (fun x => !x.isDiscarded))) = r := by
                        cases h; exact ⟨rfl, rfl⟩
                      have hcg : ∀ x ∈ [bres, bodyRes], Good x := by
                        intro x hx
                        rcases List.mem_cons.mp hx with rfl | hx
                        · exact hbgood
                        · simp only [List.mem_singleton] at hx
                          exact hx ▸ hbodyGood
                      have hca : ∀ x ∈ [bres, bodyRes], AllValid tl x := by
                        intro x hx
                        rcases List.mem_cons.mp hx with rfl | hx
                        · exact hbav
                        · simp only [List.mem_singleton] at hx
                          exact hx ▸ hsav
                      exact ⟨rfl, joined_good hch hcg,
                        @joined_allValid τ tl [bres, bodyRes] RType.structural (l, 0)
                          (bodyRes.endLine, bodyRes.endColumnExclusive) hv hv2 hca⟩
                    case h_2 s3 ares =>
                      obtain ⟨hastart, hagood, haav⟩ :=
                        ha tl s2' bodyRes.endLine bodyRes.endColumnExclusive s3 ares hwf
                          hv2 hafter
                      have hch : ChainBetween (l, 0) [bres, bodyRes, ares]
                          (endOfResult ares) := by
                        refine ⟨?_, hge, ?_, posLe_refl _⟩
                        · rw [hbstart]
                          exact posLe_refl _
                        · rw [hastart]
                          exact posLe_refl _
                      rw [joinResults_pos_pos hch] at h
                      simp only [except_bind_ok, except_pure] at h
                      obtain ⟨rfl, rfl⟩ :
                          s2' = s2 ∧ (Result.mk RType.structural l 0 (endOfResult ares).1
                            (endOfResult ares).2
                            ([bres, bodyRes, ares].filter (fun x => !x.isDiscarded))) = r := by
                        cases h; exact ⟨rfl, rfl⟩
                      have hcg : ∀ x ∈ [bres, bodyRes, ares], Good x := by
                        intro x hx
                        rcases List.mem_cons.mp hx with rfl | hx
                        · exact hbgood
                        rcases List.mem_cons.mp hx with rfl | hx
                        · exact hbodyGood
                        · simp only [List.mem_singleton] at hx
                          exact hx ▸ hagood
                      have hca : ∀ x ∈ [bres, bodyRes, ares], AllValid tl x := by
                        intro x hx
                        rcases List.mem_cons.mp hx with rfl | hx
                        · exact hbav
                        rcases List.mem_cons.mp hx with rfl | hx
                        · exact hsav
                        · simp only [List.mem_singleton] at hx
                          exact hx ▸ haav
                      exact ⟨rfl, joined_good hch hcg,
                        @joined_allValid τ tl [bres, bodyRes, ares] RType.structural (l, 0)
                          (endOfResult ares) hv haav.stop hca⟩

/-- Every parser built from the combinators satisfies the span discipline. -/
theorem eval_sound : ∀ (fuel : Nat) (e : PExp σ τ), Sound (eval fuel e) := by
  intro fuel
  induction fuel with
  | zero =>
    intro e tl s l c s2 r _ _ h
    simp only [eval] at h
    cases h
  | succ fuel ih =>
    intro e
    cases e with
    | empty => exact emptyP_sound
    | fail => exact failP_sound
    | char p => exact charP_sound p
    | newline => exact newlineP_sound
    | eof => exact eofP_sound
    | bol => exact bolP_sound
    | seq ps =>
      exact seqP_sound (fun p hp => by
        obtain ⟨e', _, rfl⟩ := List.mem_map.mp hp
        exact ih e')
    | orp ps =>
      exact orP_sound (fun p hp => by
        obtain ⟨e', _, rfl⟩ := List.mem_map.mp hp
        exact ih e')
    | rep ps =>
      exact repP_sound (fun p hp => by
        obtain ⟨e', _, rfl⟩ := List.mem_map.mp hp
        exact ih e') (fuel + 1)
    | literal text t => exact literalP_sound text t
    | sect b body sL iL a =>
      exact sectionP_sound (ih b) (fun lines s r => ih (body lines s r)) (ih a)

theorem chainBetween_chain' {rs : List (Result τ)} :
    ∀ {lo hi : Pos}, ChainBetween lo rs hi →
      (∀ x ∈ rs, posLe (startOfResult x) (endOfResult x)) →
      List.Chain' (fun a b => posLe (startOfResult a) (startOfResult b) ∧
        posLe (endOfResult a) (endOfResult b)) rs := by
  induction rs with
  | nil => simp
  | cons r rs ih =>
    intro lo hi h hval
    cases rs with
    | nil => simp
    | cons r2 rs2 =>
      rw [List.chain'_cons]
      have hlink : posLe (endOfResult r) (startOfResult r2) := h.2.1
      refine ⟨⟨?_, ?_⟩, ih h.2 (fun x hx => hval x (by simp [hx]))⟩
      · exact posLe_trans (hval r (by simp)) hlink
      · exact posLe_trans hlink (hval r2 (by simp))

theorem chainBetween_mem_bounds {rs : List (Result τ)} :
    ∀ {lo hi : Pos}, ChainBetween lo rs hi →
      (∀ x ∈ rs, posLe (startOfResult x) (endOfResult x)) →
      ∀ x ∈ rs, posLe lo (startOfResult x) ∧ posLe (endOfResult x) hi := by
  induction rs with
  | nil => simp
  | cons r rs ih =>
    intro lo hi h hval x hx
    rcases List.mem_cons.mp hx with rfl | hx
    · exact ⟨h.1, chainBetween_le h.2 (fun y hy => hval y (by simp [hy]))⟩
    · have := ih h.2 (fun y hy => hval y (by simp [hy])) x hx
      have hlo : posLe lo (endOfResult r) :=
        posLe_trans h.1 (hval r (by simp))
      exact ⟨posLe_trans hlo this.1, this.2⟩

/-! ### The layout walk of joinResults -/

/-- The cursor walk described by the spec for `joinResults`: starting from the
computed start, the cursor must not pass any result's start, advances to each
result's end, and finally must not pass the computed end. -/
def layoutWalkOk : Pos → List (Result τ) → Pos → Bool
  | cur, [], en => resultCoordinatesAreValid cur.1 cur.2 en.1 en.2
  | cur, r :: rs, en =>
    resultCoordinatesAreValid cur.1 cur.2 r.startLine r.startColumnInclusive &&
      layoutWalkOk (endOfResult r) rs en

theorem layoutWalkOk_iff_chain {rs : List (Result τ)} :
    ∀ {lo en : Pos}, layoutWalkOk lo rs en = true ↔ ChainBetween lo rs en := by
  induction rs with
  | nil =>
    intro lo en
    rw [layoutWalkOk]
    exact resultCoordinatesAreValid_iff
  | cons r rs ih =>
    intro lo en
    rw [layoutWalkOk, Bool.and_eq_true, resultCoordinatesAreValid_iff, ih]
    exact Iff.rfl

theorem joinWalk_cases : ∀ (rs : List (Result τ)) (lo hi : Pos),
    (ChainBetween lo rs hi ∧ joinWalk lo hi rs = .ok (rs.filter (fun r => !r.isDiscarded)))
    ∨ (¬ ChainBetween lo rs hi ∧ joinWalk lo hi rs = .error .invalidLayout) := by
  intro rs
  induction rs with
  | nil =>
    intro lo hi
    by_cases h : resultCoordinatesAreValid lo.1 lo.2 hi.1 hi.2 = true
    · exact Or.inl ⟨resultCoordinatesAreValid_iff.mp h, by rw [joinWalk, if_pos h]; rfl⟩
    · refine Or.inr ⟨fun hc => h (resultCoordinatesAreValid_iff.mpr hc), ?_⟩
      rw [joinWalk, if_neg h]
  | cons r rs ih =>
    intro lo hi
    by_cases h1 : resultCoordinatesAreValid lo.1 lo.2 r.startLine r.startColumnInclusive = true
    · rcases ih (endOfResult r) hi with ⟨hch, heq⟩ | ⟨hch, heq⟩
      · refine Or.inl ⟨⟨resultCoordinatesAreValid_iff.mp h1, hch⟩, ?_⟩
        rw [joinWalk, if_pos h1, heq]
        simp only [except_bind_ok, except_pure]
        by_cases hd : r.isDiscarded
        · simp [List.filter_cons, hd]
        · simp [List.filter_cons, hd]
      · refine Or.inr ⟨fun hc => hch hc.2, ?_⟩
        rw [joinWalk, if_pos h1, heq]
        rfl
    · refine Or.inr ⟨fun hc => h1 (resultCoordinatesAreValid_iff.mpr hc.1), ?_⟩
      rw [joinWalk, if_neg h1]

/-- The computed start bound of `joinResults`: the override, else the first
result's start. -/
def computedStart (results : List (Result τ)) : Option Pos → Pos
  | some p => p
  | none =>
    match results with
    | r :: _ => startOfResult r
    | [] => (0, 0)

/-- The computed end bound of `joinResults`: the override, else the last
result's end. -/
def computedEnd (results : List (Result τ)) : Option Pos → Pos
  | some p => p
  | none =>
    match results.getLast? with
    | some r => endOfResult r
    | none => (0, 0)

/-! ### Terminal-parser choice -/

/-- The list described by the spec for greedy terminal choice: the first
non-empty list among the given lists, or the empty list. -/
def firstNonemptyResultList {α : Type} : List (List α) → List α
  | [] => []
  | l :: ls => if l.isEmpty then firstNonemptyResultList ls else l

theorem orTPRun_eq_join {state : σ} {lines : TextLines} {line offset : Nat} :
    ∀ (ps : List (σ → TextLines → Nat → Nat → List (Option Sym × σ × Result τ))),
      orTPRun state lines line offset ps =
        (ps.map (fun p => p state lines line offset)).flatten := by
  intro ps
  induction ps with
  | nil => rfl
  | cons p ps ih => rw [orTPRun, ih]; rfl

theorem orGreedyTPRun_eq {state : σ} {lines : TextLines} {line offset : Nat} :
    ∀ (ps : List (σ → TextLines → Nat → Nat → List (Option Sym × σ × Result τ))),
      orGreedyTPRun state lines line offset ps =
        firstNonemptyResultList (ps.map (fun p => p state lines line offset)) := by
  intro ps
  induction ps with
  | nil => rfl
  | cons p ps ih =>
    simp only [orGreedyTPRun, List.map_cons, firstNonemptyResultList, ih]
    by_cases h : (p state lines line offset).isEmpty
    · have h0 : (p state lines line offset).length = 0 := by
        simp [List.isEmpty_iff] at h
        simp [h]
      rw [if_neg (by omega), if_pos h]
    · have h0 : (p state lines line offset).length > 0 := by
        have hne : p state lines line offset ≠ [] := by
          simpa [List.isEmpty_iff] using h
        exact List.length_pos.mpr hne
      rw [if_pos h0, if_neg h]

theorem joinResults_not_empty_case {results : List (Result τ)} {type : RType τ}
    {start? end? : Option Pos}
    (hc : (results.isEmpty && (start?.isNone || end?.isNone)) = false) :
    joinResults results type start? end? =
      joinWalk (computedStart results start?) (computedEnd results end?) results >>=
        fun children => pure (.mk type (computedStart results start?).1
          (computedStart results start?).2 (computedEnd results end?).1
          (computedEnd results end?).2 children) := by
  cases start? <;> cases end? <;> cases results <;>
    simp_all [joinResults, computedStart, computedEnd]

/-! ### The claims -/

/-- C2: for every parser built from the combinators (emptyP, charP, newlineP,
eofP, bolP, seqP, orP, repP, literalP, sectionP) and every user state,
TextLines and valid entry position: if the parser returns Some, then the
result's span starts exactly at the entry position, the spans of its children
are in non-decreasing order, and each child's span lies within the parent's
span. -/
theorem claim_C2_span_invariants {σ τ : Type} (fuel : Nat) (e : PExp σ τ)
    (tl : TextLines) (s : σ) (line col : Nat) (s2 : σ) (r : Result τ)
    (hwf : tl.WF) (hv : tl.valid line col = true)
    (h : eval fuel e s tl line col = .ok (some (s2, r))) :
    (r.startLine = line ∧ r.startColumnInclusive = col) ∧
    List.Chain' (fun a b => posLe (startOfResult a) (startOfResult b) ∧
      posLe (endOfResult a) (endOfResult b)) r.children ∧
    (∀ ch ∈ r.children, posLe (startOfResult r) (startOfResult ch) ∧
      posLe (endOfResult ch) (endOfResult r)) := by
  obtain ⟨hstart, hgood, _⟩ := eval_sound fuel e tl s line col s2 r hwf hv h
  have hvs : ∀ x ∈ r.children, posLe (startOfResult x) (endOfResult x) :=
    fun x hx => (hgood.childrenGood x hx).validSpan
  refine ⟨⟨congrArg Prod.fst hstart, congrArg Prod.snd hstart⟩,
    chainBetween_chain' hgood.chain hvs, fun ch hch => ?_⟩
  exact chainBetween_mem_bounds hgood.chain hvs ch hch

def c2tl : TextLines := createTextLines [['a', 'b']]

def c2res : Result String := .mk (.labeled "A") 0 0 0 2 []

theorem claim_C2_span_invariants_witness :
    c2tl.WF ∧ c2tl.valid 0 0 = true ∧
    (eval 3 (PExp.literal ['a', 'b'] (.labeled "A")) (0 : Nat) c2tl 0 0 =
      .ok (some (0, c2res))) ∧
    ((c2res.startLine = 0 ∧ c2res.startColumnInclusive = 0) ∧
     List.Chain' (fun a b => posLe (startOfResult a) (startOfResult b) ∧
       posLe (endOfResult a) (endOfResult b)) c2res.children ∧
     (∀ ch ∈ c2res.children, posLe (startOfResult c2res) (startOfResult ch) ∧
       posLe (endOfResult ch) (endOfResult c2res))) :=
  ⟨createTextLines_WF _, rfl, rfl,
    claim_C2_span_invariants 3 (PExp.literal ['a', 'b'] (.labeled "A")) c2tl 0 0 0 0 c2res
      (createTextLines_WF _) rfl rfl⟩

/-- C7: the parser obtained from orTerminalParsers returns the concatenation,
in order, of the result lists of the parsers obtained from each element; the
parser obtained from orGreedyTerminalParsers returns the result list of the
first element whose list is non-empty, or the empty list. -/
theorem claim_C7_terminal_choice {σ τ : Type} (parsers : List (TerminalParsers σ τ))
    (terminals : List (Option Sym)) (state : σ) (lines : TextLines) (line offset : Nat) :
    orTerminalParsers parsers terminals state lines line offset =
      (parsers.map (fun p => p terminals state lines line offset)).flatten ∧
    orGreedyTerminalParsers parsers terminals state lines line offset =
      firstNonemptyResultList (parsers.map (fun p => p terminals state lines line offset)) := by
  constructor
  · show orTPRun state lines line offset (parsers.map (fun p => p terminals)) = _
    rw [orTPRun_eq_join, List.map_map]
    rfl
  · show orGreedyTPRun state lines line offset (parsers.map (fun p => p terminals)) = _
    rw [orGreedyTPRun_eq, List.map_map]
    rfl

/-- C6: joinResults throws InvalidArguments exactly when the result list is
empty and a bound is missing; otherwise, with the computed bounds, it throws
InvalidLayout exactly when the cursor walk fails (some result begins strictly
before the cursor, or the final cursor lies strictly beyond the computed end);
in all remaining cases it returns a node. -/
theorem claim_C6_joinResults {τ : Type} (results : List (Result τ)) (type : RType τ)
    (start? end? : Option Pos) :
    (joinResults results type start? end? = .error .invalidArguments ↔
      (results = [] ∧ (start? = none ∨ end? = none))) ∧
    (¬(results = [] ∧ (start? = none ∨ end? = none)) →
      ((joinResults results type start? end? = .error .invalidLayout ↔
        layoutWalkOk (computedStart results start?) results (computedEnd results end?) =
          false) ∧
       (layoutWalkOk (computedStart results start?) results (computedEnd results end?) =
          true →
        joinResults results type start? end? =
          .ok (.mk type (computedStart results start?).1 (computedStart results start?).2
            (computedEnd results end?).1 (computedEnd results end?).2
            (results.filter (fun r => !r.isDiscarded)))))) := by
  have hiff : (results.isEmpty && (start?.isNone || end?.isNone)) = true ↔
      (results = [] ∧ (start? = none ∨ end? = none)) := by
    cases start? <;> cases end? <;> cases results <;> simp
  by_cases hc : (results.isEmpty && (start?.isNone || end?.isNone)) = true
  · constructor
    · rw [joinResults.eq_def, if_pos hc]
      simp [hiff.mp hc]
    · intro habs
      exact absurd (hiff.mp hc) habs
  · have hcf : (results.isEmpty && (start?.isNone || end?.isNone)) = false := by
      rcases Bool.eq_false_or_eq_true (results.isEmpty && (start?.isNone || end?.isNone))
        with hx | hx
      · exact absurd hx hc
      · exact hx
    have hnprop : ¬(results = [] ∧ (start? = none ∨ end? = none)) :=
      fun hx => hc (hiff.mpr hx)
    have hmain := @joinResults_not_empty_case τ results type start? end? hcf
    rcases joinWalk_cases results (computedStart results start?) (computedEnd results end?)
      with ⟨hch, heq⟩ | ⟨hch, heq⟩
    · have hwalk : layoutWalkOk (computedStart results start?) results
          (computedEnd results end?) = true := layoutWalkOk_iff_chain.mpr hch
      have hres : joinResults results type start? end? =
          .ok (.mk type (computedStart results start?).1 (computedStart results start?).2
            (computedEnd results end?).1 (computedEnd results end?).2
            (results.filter (fun r => !r.isDiscarded))) := by
        rw [hmain, heq]
        rfl
      refine ⟨?_, fun _ => ⟨?_, fun _ => hres⟩⟩
      · rw [hres]
        exact ⟨fun hx => absurd hx (by simp), fun hx => absurd hx hnprop⟩
      · rw [hres, hwalk]
        exact ⟨fun hx => absurd hx (by simp), fun hx => by cases hx⟩
    · have hwalk : layoutWalkOk (computedStart results start?) results
          (computedEnd results end?) = false := by
        rcases Bool.eq_false_or_eq_true (layoutWalkOk (computedStart results start?) results
          (computedEnd results end?)) with hx | hx
        · exact absurd (layoutWalkOk_iff_chain.mp hx) hch
        · exact hx
      have hres : joinResults results type start? end? = .error .invalidLayout := by
        rw [hmain, heq]
        rfl
      refine ⟨?_, fun _ => ⟨?_, fun hx => ?_⟩⟩
      · rw [hres]
        refine ⟨fun hx => ?_, fun hx => absurd hx hnprop⟩
        · simp at hx
      · rw [hres, hwalk]
        exact ⟨fun _ => rfl, fun _ => rfl⟩
      · rw [hwalk] at hx
        cases hx

theorem claim_C6_joinResults_witness :
    joinResults ([] : List (Result String)) .structural (some (0, 0)) none =
      .error .invalidArguments :=
  (claim_C6_joinResults [] .structural (some (0, 0)) none).1.mpr ⟨rfl, Or.inr rfl⟩

/-- C5 counterexample: on the one-line text "a", at position (1, 0) we have
line = lineCount, where the claim asserts that eofP succeeds; the source
instead throws InvalidPosition from the entry assert, because (1, 0) is not a
valid position of a one-line text (TextLinesImpl.valid accepts
line = lineCount only for an empty text). -/
theorem claim_C5_counterexample :
    1 = (createTextLines [['a']]).lineCount ∧
    @eofP Nat String 0 (createTextLines [['a']]) 1 0 = .error .invalidPosition :=
  ⟨rfl, rfl⟩

/-- C5 (amended): at every valid position, eofP succeeds exactly when
line = lineCount (possible only for an empty text at (0,0)) or when line is
the last line and the column equals that line's count, returning a zero-length
Discarded node at the entry position; at every other valid position it returns
None; at invalid positions it throws InvalidPosition instead. -/
theorem claim_C5_eofP_amended {σ τ : Type} (s : σ) (tl : TextLines) (line col : Nat) :
    (tl.valid line col = true →
      @eofP σ τ s tl line col =
        .ok (if line = tl.lineCount ∨
              (line + 1 = tl.lineCount ∧ col = (tl.lineAt line).length)
          then some (s, .mk .discarded line col line col [])
          else none)) ∧
    (tl.valid line col = false → @eofP σ τ s tl line col = .error .invalidPosition) := by
  constructor
  · intro hv
    simp only [eofP, TextLines.assert_ok hv, except_bind_ok]
    by_cases hcond : line = tl.lineCount ∨
        (line + 1 = tl.lineCount ∧ col = (tl.lineAt line).length)
    · rw [if_pos hcond, if_pos hcond]
      rfl
    · rw [if_neg hcond, if_neg hcond]
      rfl
  · intro hv
    simp only [eofP, TextLines.assert, hv]
    rfl

theorem claim_C5_eofP_amended_witness :
    (createTextLines [['a']]).valid 0 1 = true ∧
    @eofP Nat String 7 (createTextLines [['a']]) 0 1 =
      .ok (if 0 = (createTextLines [['a']]).lineCount ∨
            (0 + 1 = (createTextLines [['a']]).lineCount ∧
              1 = ((createTextLines [['a']]).lineAt 0).length)
        then some (7, .mk .discarded 0 1 0 1 [])
        else none) :=
  ⟨rfl, (claim_C5_eofP_amended 7 (createTextLines [['a']]) 0 1).1 rfl⟩

/-- C1: for every driver configuration built by lrP with an invalid label
provided, and for every user state, input TextLines and entry position:
whenever the maximum-valid parser's runtime loop reaches an LR Error (the
failed() exit) after having recorded a lastValid position Q, the value it
returns equals the value returned by the maximum-invalid (non-restarting)
parser run from the same initial user state and entry position on the input
truncated by textlinesUntil at Q. -/
theorem claim_C1_maximum_valid_restart {σ τ : Type} (cfg : LRConfig σ τ) (iv : Option τ)
    (_hinv : cfg.invalid = some iv) (fuel : Nat) (s : σ) (lines : TextLines)
    (line offset : Nat) (ls : LoopSt σ τ) (q : Pos)
    (hrun : lrRun cfg lines fuel (initLoop s line offset) = .failed ls)
    (hlast : ls.lastValid = some q) :
    maximumValid cfg fuel s lines line offset =
      maximumInvalid cfg fuel s (textlinesUntil lines q.1 q.2) line offset := by
  simp only [maximumValid, hrun, hlast]

def c1cfg : LRConfig Nat String where
  plans := [.error]
  finalStates := [0]
  rules := []
  gotoMap := fun _ _ => none
  symsOf := fun _ => none
  handleOf := fun _ => none
  nonterminals := fun _ => none
  terminalParsers := fun _ _ _ _ _ => []
  invalid := some (some "INV")

def c1tl : TextLines := createTextLines [['a', 'b']]

theorem claim_C1_maximum_valid_restart_witness :
    c1cfg.invalid = some (some "INV") ∧
    lrRun c1cfg c1tl 1 (initLoop 7 0 0) =
      .failed ⟨7, [0], [], some (0, 0), 0, 0⟩ ∧
    (⟨7, [0], [], some (0, 0), 0, 0⟩ : LoopSt Nat String).lastValid = some (0, 0) ∧
    maximumValid c1cfg 1 7 c1tl 0 0 =
      maximumInvalid c1cfg 1 7 (textlinesUntil c1tl 0 0) 0 0 :=
  ⟨rfl, rfl, rfl,
    claim_C1_maximum_valid_restart c1cfg (some "INV") rfl 1 7 c1tl 0 0
      ⟨7, [0], [], some (0, 0), 0, 0⟩ (0, 0) rfl rfl⟩

/-- C8: printing the result of literalP("abc", "A") applied at (0, 0) to the
TextLines of "abc", with nameOf the identity and isOpaque constantly false,
emits exactly one line, namely [00:00 to 00:03[   A = "abc", with line and
column numbers zero-padded to two digits. -/
theorem claim_C8_printer :
    (match @eval Nat String 5 (.literal (textOf "abc") (.labeled "A")) 0
        (createTextLines [textOf "abc"]) 0 0 with
      | .ok (some (_, r)) =>
        printResult (createTextLines [textOf "abc"]) r (fun t => t) (fun _ => false)
      | _ => .error .internal) = .ok ["[00:00 to 00:03[   A = \"abc\""] := rfl

theorem repPRun_emptyP_diverges {σ τ : Type} {tl : TextLines} {l c : Nat}
    (hv : tl.valid l c = true) (sL sC : Nat) :
    ∀ (fuel : Nat) (s : σ) (acc : List (Result τ)),
      repPRun emptyP tl sL sC fuel s l c acc = .error .fuel := by
  intro fuel
  induction fuel with
  | zero => intro s acc; rfl
  | succ fuel ih =>
    intro s acc
    rw [repPRun]
    simp only [emptyP, TextLines.assert_ok hv, except_bind_ok, except_pure,
      Result.isDiscarded]
    exact ih s _

theorem rep_nil_diverges {σ τ : Type} {tl : TextLines} {l c : Nat}
    (hv : tl.valid l c = true) :
    ∀ (fuel : Nat) (s : σ), @eval σ τ fuel (.rep []) s tl l c = .error .fuel := by
  intro fuel s
  cases fuel with
  | zero => rfl
  | succ fuel =>
    simp only [eval, List.map_nil, repP, TextLines.assert_ok hv, except_bind_ok]
    exact repPRun_emptyP_diverges hv l c (fuel + 1) s []

/-- C4 counterexample: repP of an empty parser list (whose inner seq is
emptyP, which succeeds without consuming input) never terminates: the loop
exhausts every amount of modelled fuel, so no fuel bound makes it return a
parse result; the claim asserts termination with Some for every parser list,
user state, TextLines and valid entry position. -/
theorem claim_C4_counterexample :
    ¬ ∃ (fuel : Nat) (s2 : Nat) (r : Result String),
      @eval Nat String fuel (.rep []) 0 (createTextLines [['a']]) 0 0 =
        .ok (some (s2, r)) := by
  rintro ⟨fuel, s2, r, h⟩
  rw [rep_nil_diverges rfl fuel 0] at h
  cases h

theorem repPRun_never_none {σ τ : Type} {p : Parser σ τ} {tl : TextLines} {sL sC : Nat} :
    ∀ (fuel : Nat) (s : σ) (l c : Nat) (acc : List (Result τ)),
      repPRun p tl sL sC fuel s l c acc ≠ .ok none := by
  intro fuel
  induction fuel with
  | zero => intro s l c acc h; cases h
  | succ fuel ih =>
    intro s l c acc h
    rw [repPRun] at h
    cases hp : p s tl l c with
    | error e => rw [hp] at h; cases h
    | ok pr =>
      rw [hp] at h
      simp only [except_bind_ok] at h
      cases pr with
      | none => simp only [except_pure] at h; cases h
      | some sr => exact ih _ _ _ _ h

theorem repPRun_stop {σ τ : Type} {p : Parser σ τ} {tl : TextLines} {sL sC : Nat} :
    ∀ (fuel : Nat) (s : σ) (l c : Nat) (acc : List (Result τ)) (s2 : σ) (r : Result τ),
      repPRun p tl sL sC fuel s l c acc = .ok (some (s2, r)) →
      p s2 tl r.endLine r.endColumnExclusive = .ok none := by
  intro fuel
  induction fuel with
  | zero => intro s l c acc s2 r h; cases h
  | succ fuel ih =>
    intro s l c acc s2 r h
    rw [repPRun] at h
    cases hp : p s tl l c with
    | error e => rw [hp] at h; cases h
    | ok pr =>
      rw [hp] at h
      simp only [except_bind_ok] at h
      cases pr with
      | none =>
        simp only [except_pure] at h
        obtain ⟨rfl, rfl⟩ :
            s = s2 ∧ Result.mk RType.structural sL sC l c acc = r := by
          cases h; exact ⟨rfl, rfl⟩
        exact hp
      | some sr => exact ih _ _ _ _ _ _ h

/-- C4 (amended): repP never returns parse failure (None) — when its loop
completes it always returns Some — and it stops exactly when the inner
sequence returns None: at the final state and final position of a successful
run, the inner seqP fails. Unconditional termination does not hold: when the
inner sequence succeeds without consuming input (e.g. zero parsers, giving
emptyP), the loop runs forever. -/
theorem claim_C4_repP_amended {σ τ : Type} (ps : List (PExp σ τ)) (fuel : Nat)
    (tl : TextLines) (s : σ) (l c : Nat) :
    (eval (fuel + 1) (.rep ps) s tl l c ≠ .ok none) ∧
    (∀ (s2 : σ) (r : Result τ),
      eval (fuel + 1) (.rep ps) s tl l c = .ok (some (s2, r)) →
      seqP (ps.map (eval fuel)) s2 tl r.endLine r.endColumnExclusive = .ok none) := by
  constructor
  · intro h
    simp only [eval, repP] at h
    by_cases hv : tl.valid l c = true
    · rw [TextLines.assert_ok hv] at h
      simp only [except_bind_ok] at h
      exact repPRun_never_none _ _ _ _ _ h
    · rw [TextLines.assert] at h
      rw [if_neg hv] at h
      cases h
  · intro s2 r h
    simp only [eval, repP] at h
    by_cases hv : tl.valid l c = true
    · rw [TextLines.assert_ok hv] at h
      simp only [except_bind_ok] at h
      exact repPRun_stop _ _ _ _ _ _ _ h
    · rw [TextLines.assert] at h
      rw [if_neg hv] at h
      cases h

theorem claim_C4_repP_amended_witness :
    (@eval Nat String 3 (.rep [.char (fun ch => ch == 'a')]) 0
        (createTextLines [['a', 'b']]) 0 0 =
      .ok (some (0, .mk .structural 0 0 0 1 []))) ∧
    seqP ([(.char (fun ch => ch == 'a') : PExp Nat String)].map (eval 2)) 0
        (createTextLines [['a', 'b']]) 0 1 = .ok none :=
  ⟨rfl,
    (claim_C4_repP_amended [.char (fun ch => ch == 'a')] 2 (createTextLines [['a', 'b']])
      0 0 0).2 0 (.mk .structural 0 0 0 1 []) rfl⟩

/-- The successful run of a section parser, decomposed along the code path:
given the bullet run on the cut-off view, the cut-out window, the body run on
it, the span shift back to source coordinates and the after run at the
post-body position, the section returns the body parser's state together with
the structural node joined from the non-discarded pieces. -/
theorem sectionP_run_eq {σ τ : Type} (fuel : Nat) (bullet : PExp σ τ)
    (body : TextLines → σ → Result τ → PExp σ τ) (spacesL indentationL : Lexer)
    (afterE : PExp σ τ) {tl : TextLines} {s : σ} {line : Nat} (hwf : tl.WF)
    (hv : tl.valid line 0 = true)
    {bl : TextLines} {s1 : σ} {bres : Result τ} {w : Cutout} {s2 : σ}
    {b0 bodyRes : Result τ} {aout : ParseResult σ τ}
    (hcut : cutoffAfterIndentation tl line (fun text => spacesL text 0 > 0) = .ok bl)
    (hbul : eval fuel bullet s bl line 0 = .ok (some (s1, bres)))
    (hco : cutoutTextLines tl bres.endLine bres.endColumnExclusive spacesL indentationL =
      .ok w)
    (hbody : eval fuel (body tl s1 bres) s1 w.toTextLines 0 0 = .ok (some (s2, b0)))
    (hshift : shiftResult w b0 = .ok bodyRes)
    (hafter : eval fuel afterE s2 tl bodyRes.endLine bodyRes.endColumnExclusive = .ok aout) :
    eval (fuel + 1) (.sect bullet body spacesL indentationL afterE) s tl line 0 =
      .ok (some (s2,
        match aout with
        | none => .mk .structural line 0 bodyRes.endLine bodyRes.endColumnExclusive
            ([bres, bodyRes].filter (fun r => !r.isDiscarded))
        | some (_, ares) => .mk .structural line 0 ares.endLine ares.endColumnExclusive
            ([bres, bodyRes, ares].filter (fun r => !r.isDiscarded)))) := by
  obtain ⟨hblwf, hblimp, hblv⟩ := cutoffAfterIndentation_props hwf hv hcut
  obtain ⟨hbstart, hbgood, hbave⟩ := eval_sound fuel bullet bl s line 0 s1 bres hblwf hblv hbul
  have hbav := AllValid.mono hblimp hbave
  have hv1 : tl.valid bres.endLine bres.endColumnExclusive = true := hbav.stop
  obtain ⟨hwwf, hw00, hwspec⟩ := cutoutTextLines_props hwf hv1 hco
  obtain ⟨hb0start, hb0good, _⟩ :=
    eval_sound fuel (body tl s1 bres) w.toTextLines s1 0 0 s2 b0 hwwf hw00 hbody
  obtain ⟨⟨hsstart, hsend⟩, hsav, hsgood⟩ := shiftResult_sound hwf hwspec b0 bodyRes hshift
  have hge : posLe (bres.endLine, bres.endColumnExclusive) (startOfResult bodyRes) := by
    rw [hsstart, hb0start]
    exact (CutoutSpec.shift_valid hwf hwspec hw00).2
  have hv2 : tl.valid bodyRes.endLine bodyRes.endColumnExclusive = true := hsav.stop
  show sectionP (eval fuel bullet) (fun lines s r => eval fuel (body lines s r))
    spacesL indentationL (eval fuel afterE) s tl line 0 = _
  cases aout with
  | none =>
    have hch : ChainBetween (line, 0) [bres, bodyRes]
        (bodyRes.endLine, bodyRes.endColumnExclusive) := by
      refine ⟨?_, hge, posLe_refl _⟩
      rw [hbstart]
      exact posLe_refl _
    simp only [sectionP, TextLines.assert_ok hv, except_bind_ok]
    rw [if_neg (by omega)]
    simp only [hcut, except_bind_ok, hbul, hco, hbody, hshift, hafter,
      joinResults_pos_pos hch, except_pure]
  | some sa =>
    obtain ⟨s3, ares⟩ := sa
    obtain ⟨hastart, hagood, haav⟩ :=
      eval_sound fuel afterE tl s2 bodyRes.endLine bodyRes.endColumnExclusive s3 ares hwf
        hv2 hafter
    have hch : ChainBetween (line, 0) [bres, bodyRes, ares] (endOfResult ares) := by
      refine ⟨?_, hge, ?_, posLe_refl _⟩
      · rw [hbstart]
        exact posLe_refl _
      · rw [hastart]
        exact posLe_refl _
    simp only [sectionP, TextLines.assert_ok hv, except_bind_ok]
    rw [if_neg (by omega)]
    simp only [hcut, except_bind_ok, hbul, hco, hbody, hshift, hafter,
      joinResults_pos_pos hch, except_pure]
    rfl

/-- C3 counterexample: with a discarded (charP) bullet on the one-line text
"x", the bullet and body both succeed, but the returned Structural node's
children contain only the body result: joinResults excludes the Discarded
bullet result, so the children are not [bullet result, body result] as the
claim states. -/
theorem claim_C3_counterexample :
    (@eval Nat String 4 (.char (fun ch => ch == 'x')) 0 (createTextLines [['x']]) 0 0 =
      .ok (some (0, .mk .discarded 0 0 0 1 []))) ∧
    (@eval Nat String 5 (.sect (.char (fun ch => ch == 'x')) (fun _ _ _ => .empty)
        (fun _ _ => -1) (fun _ _ => -1) .fail) 0 (createTextLines [['x']]) 0 0 =
      .ok (some (0, .mk .structural 0 0 0 1 [.mk .structural 0 1 0 1 []]))) ∧
    (Result.mk .structural 0 0 0 1 [.mk .structural 0 1 0 1 []] :
      Result String).children.length ≠ 2 :=
  ⟨rfl, rfl, by decide⟩

/-- C3 (amended): sectionP, entered at a valid position (line, col), returns
None whenever col is nonzero; and whenever the bullet parser, the body-window
construction and the body parser succeed along the code path, it returns a
Structural node spanning from the entry position to the end of after (when
afterP succeeded at the post-body source position) or the end of the shifted
body, whose children are [bullet, body, after?] with Discarded results
omitted; the after child is included exactly when afterP succeeded there,
afterP parse failure being non-fatal. -/
theorem claim_C3_sectionP_amended {σ τ : Type} (fuel : Nat) (bullet : PExp σ τ)
    (body : TextLines → σ → Result τ → PExp σ τ) (spacesL indentationL : Lexer)
    (afterE : PExp σ τ) (tl : TextLines) (s : σ) (line col : Nat) (hwf : tl.WF)
    (hv : tl.valid line col = true) :
    (col ≠ 0 →
      eval (fuel + 1) (.sect bullet body spacesL indentationL afterE) s tl line col =
        .ok none) ∧
    (∀ (bl : TextLines) (s1 : σ) (bres : Result τ) (w : Cutout) (s2 : σ)
       (b0 bodyRes : Result τ) (aout : ParseResult σ τ),
      col = 0 →
      cutoffAfterIndentation tl line (fun text => spacesL text 0 > 0) = .ok bl →
      eval fuel bullet s bl line 0 = .ok (some (s1, bres)) →
      cutoutTextLines tl bres.endLine bres.endColumnExclusive spacesL indentationL =
        .ok w →
      eval fuel (body tl s1 bres) s1 w.toTextLines 0 0 = .ok (some (s2, b0)) →
      shiftResult w b0 = .ok bodyRes →
      eval fuel afterE s2 tl bodyRes.endLine bodyRes.endColumnExclusive = .ok aout →
      eval (fuel + 1) (.sect bullet body spacesL indentationL afterE) s tl line col =
        .ok (some (s2,
          match aout with
          | none => .mk .structural line 0 bodyRes.endLine bodyRes.endColumnExclusive
              ([bres, bodyRes].filter (fun r => !r.isDiscarded))
          | some (_, ares) => .mk .structural line 0 ares.endLine ares.endColumnExclusive
              ([bres, bodyRes, ares].filter (fun r => !r.isDiscarded))))) := by
  constructor
  · intro hcol
    show sectionP (eval fuel bullet) (fun lines s r => eval fuel (body lines s r))
      spacesL indentationL (eval fuel afterE) s tl line col = .ok none
    simp only [sectionP, TextLines.assert_ok hv, except_bind_ok]
    rw [if_pos (by omega)]
    rfl
  · intro bl s1 bres w s2 b0 bodyRes aout hcol hcut hbul hco hbody hshift hafter
    subst hcol
    cases aout with
    | none =>
      exact sectionP_run_eq fuel bullet body spacesL indentationL afterE hwf hv hcut hbul
        hco hbody hshift hafter
    | some sa =>
      obtain ⟨s3, ares⟩ := sa
      exact sectionP_run_eq fuel bullet body spacesL indentationL afterE hwf hv hcut hbul
        hco hbody hshift hafter

theorem claim_C3_sectionP_amended_witness :
    (createTextLines [['x']]).WF ∧ (createTextLines [['x']]).valid 0 0 = true ∧
    @eval Nat String 5 (.sect (.char (fun ch => ch == 'x')) (fun _ _ _ => .empty)
        (fun _ _ => -1) (fun _ _ => -1) .fail) 0 (createTextLines [['x']]) 0 0 =
      .ok (some (0, .mk .structural 0 0 0 1 [.mk .structural 0 1 0 1 []])) :=
  ⟨createTextLines_WF _, rfl,
    (claim_C3_sectionP_amended 4 (.char (fun ch => ch == 'x')) (fun _ _ _ => .empty)
      (fun _ _ => -1) (fun _ _ => -1) .fail (createTextLines [['x']]) 0 0 0
      (createTextLines_WF _) rfl).2
      (createTextLines [['x']]) 0 (.mk .discarded 0 0 0 1 [])
      (.window ⟨0, [[]], [1]⟩) 0 (.mk .structural 0 0 0 0 [])
      (.mk .structural 0 1 0 1 []) none rfl rfl rfl rfl rfl rfl rfl⟩

/-- A bullet parser used to exercise sectionP on concrete inputs: a zero-length
structural node at the entry position, user state kept unchanged. -/
def c9bullet : Parser Nat String :=
  fun s _ l c => .ok (some (s, .mk .structural l c l c []))

/-- A body parser used to exercise sectionP on concrete inputs: it increments
the user state and produces a zero-length structural node at (0, 0) of the body
window. -/
def c9body : TextLines → Nat → Result String → Parser Nat String :=
  fun _ _ _ s _ _ _ => .ok (some (s + 1, .mk .structural 0 0 0 0 []))

/-- An after parser used to exercise sectionP on concrete inputs: it adds 10 to
the user state and consumes one character, so its state and span are
distinguishable from the body parser's. -/
def c9after : Parser Nat String :=
  fun s _ l c => .ok (some (s + 10, .mk .structural l c l (c + 1) []))

/-- C9: for arbitrary parser functions (so in particular ones whose state
updates are visible), when sectionP's bullet and body succeed and afterP also
succeeds at the post-body position with state s3, the user state returned by
sectionP is s2, the state produced by the body parser — s3 is free here and
discarded by the code — even though afterP's result is included as a child
(unless Discarded) and the returned span extends to afterP's end. -/
theorem claim_C9_sectionP_state {σ τ : Type}
    (bulletP : Parser σ τ) (bodyP : TextLines → σ → Result τ → Parser σ τ)
    (spacesL indentationL : Lexer) (afterP : Parser σ τ)
    (tl : TextLines) (s : σ) (line : Nat) (hv : tl.valid line 0 = true)
    (bl : TextLines) (s1 : σ) (bres : Result τ) (w : Cutout) (s2 : σ)
    (b0 bodyRes : Result τ) (s3 : σ) (ares : Result τ)
    (hcut : cutoffAfterIndentation tl line (fun text => spacesL text 0 > 0) = .ok bl)
    (hbul : bulletP s bl line 0 = .ok (some (s1, bres)))
    (hco : cutoutTextLines tl bres.endLine bres.endColumnExclusive spacesL indentationL =
      .ok w)
    (hbody : bodyP tl s1 bres s1 w.toTextLines 0 0 = .ok (some (s2, b0)))
    (hshift : shiftResult w b0 = .ok bodyRes)
    (hafter : afterP s2 tl bodyRes.endLine bodyRes.endColumnExclusive =
      .ok (some (s3, ares)))
    (hchain : ChainBetween (line, 0) [bres, bodyRes, ares] (endOfResult ares)) :
    sectionP bulletP bodyP spacesL indentationL afterP s tl line 0 =
      .ok (some (s2, .mk .structural line 0 ares.endLine ares.endColumnExclusive
        ([bres, bodyRes, ares].filter (fun r => !r.isDiscarded)))) := by
  simp only [sectionP, TextLines.assert_ok hv, except_bind_ok]
  rw [if_neg (by omega)]
  simp only [hcut, except_bind_ok, hbul, hco, hbody, hshift, hafter,
    joinResults_pos_pos hchain, except_pure]
  rfl

theorem claim_C9_sectionP_state_witness :
    c9after 8 (createTextLines [['x']]) 0 0 =
      .ok (some (18, .mk .structural 0 0 0 1 [])) ∧
    (8 : Nat) ≠ 18 ∧
    sectionP c9bullet c9body (fun _ _ => -1) (fun _ _ => -1) c9after 7
        (createTextLines [['x']]) 0 0 =
      .ok (some (8, .mk .structural 0 0 0 1
        [.mk .structural 0 0 0 0 [], .mk .structural 0 0 0 0 [],
          .mk .structural 0 0 0 1 []])) :=
  ⟨rfl, by decide,
    claim_C9_sectionP_state c9bullet c9body (fun _ _ => -1) (fun _ _ => -1) c9after
      (createTextLines [['x']]) 7 0 rfl
      (createTextLines [['x']]) 7 (.mk .structural 0 0 0 0 [])
      (.window ⟨0, [['x']], [0]⟩) 8 (.mk .structural 0 0 0 0 [])
      (.mk .structural 0 0 0 0 []) 18 (.mk .structural 0 0 0 1 [])
      rfl rfl rfl rfl rfl rfl ⟨by decide, by decide, by decide, posLe_refl _⟩⟩

/-- The number of subsequent source lines the cutout loop includes: the count
of lines before the first negative skipRemaining return, among the n lines
starting at line i. -/
def includedLinesCount (tl : TextLines) (sr : Lexer) : Nat → Nat → Nat
  | _, 0 => 0
  | i, n + 1 =>
    if sr (tl.lineAt i) 0 < 0 then 0 else includedLinesCount tl sr (i + 1) n + 1

theorem cutoutLoop_ok_of_bounded {tl : TextLines} {sr : Lexer} :
    ∀ (n i : Nat),
      (∀ j, i ≤ j → j < i + n → 0 ≤ sr (tl.lineAt j) 0 →
        (sr (tl.lineAt j) 0).toNat ≤ (tl.lineAt j).length) →
      ∃ ls cs, cutoutLoop tl sr i n = .ok (ls, cs) ∧
        ls.length = includedLinesCount tl sr i n := by
  intro n
  induction n with
  | zero => intro i _; exact ⟨[], [], rfl, rfl⟩
  | succ n ih =>
    intro i hb
    by_cases hneg : sr (tl.lineAt i) 0 < 0
    · refine ⟨[], [], ?_, ?_⟩
      · rw [cutoutLoop]
        rw [if_pos hneg]
        rfl
      · rw [includedLinesCount, if_pos hneg]
        rfl
    · have hle : (sr (tl.lineAt i) 0).toNat ≤ (tl.lineAt i).length :=
        hb i (le_refl _) (by omega) (by omega)
      obtain ⟨ls, cs, heq, hlen⟩ :=
        ih (i + 1) (fun j h1 h2 h3 => hb j (by omega) (by omega) h3)
      refine ⟨(tl.lineAt i).drop (sr (tl.lineAt i) 0).toNat :: ls,
        (sr (tl.lineAt i) 0).toNat :: cs, ?_, ?_⟩
      · rw [cutoutLoop]
        rw [if_neg hneg]
        simp only [sliceFrom, if_pos hle, except_bind_ok, heq, except_pure]
      · rw [includedLinesCount, if_neg hneg]
        simp [hlen]

/-- C10 counterexample: skipFirst is negative at the entry (and is clamped),
yet the window construction fails: on the second line skipRemaining returns
10, which exceeds that line's length, and Text.slice throws; the claim
asserts that construction does not fail whenever skipFirst is negative. -/
theorem claim_C10_counterexample :
    ((fun (_ : Txt) (_ : Nat) => (-5 : Int))
        ((createTextLines [['a', 'b'], ['c']]).lineAt 0) 0 < 0) ∧
    cutoutTextLines (createTextLines [['a', 'b'], ['c']]) 0 0 (fun _ _ => -5)
        (fun _ _ => 10) = .error .invalidSlice :=
  ⟨by decide, rfl⟩

/-- C10 (amended): a negative return of skipFirst is clamped to zero: the
constructed window is anchored at the entry line, and its first line is the
entry line's tail from the entry column with no characters skipped; window
construction succeeds provided every subsequent line's nonnegative
skipRemaining return is at most that line's length, and subsequent lines stop
being included exactly at the first negative skipRemaining return. -/
theorem claim_C10_cutout_amended {tl : TextLines} (hwf : tl.WF) (line column : Nat)
    (sf sr : Lexer) (hv : tl.valid line column = true) (hpos : 0 < tl.lineCount)
    (hneg : sf (tl.lineAt line) column < 0)
    (hbound : ∀ i, line < i → i < tl.lineCount → 0 ≤ sr (tl.lineAt i) 0 →
      (sr (tl.lineAt i) 0).toNat ≤ (tl.lineAt i).length) :
    ∃ ls cs,
      cutoutTextLines tl line column sf sr =
        .ok (.window ⟨line, (tl.lineAt line).drop column :: ls, column :: cs⟩) ∧
      ls.length = includedLinesCount tl sr (line + 1) (tl.lineCount - (line + 1)) := by
  have hcl : column ≤ (tl.lineAt line).length := by
    rcases (hwf line column).mp hv with ⟨_, h2⟩ | ⟨h1, _, _⟩
    · exact h2
    · omega
  have hzero : (max (sf (tl.lineAt line) column) 0).toNat = 0 := by
    have hm : max (sf (tl.lineAt line) column) 0 = 0 := by omega
    rw [hm]
    rfl
  obtain ⟨ls, cs, hloop, hlen⟩ :=
    cutoutLoop_ok_of_bounded (tl.lineCount - (line + 1)) (line + 1)
      (fun j h1 h2 h3 => hbound j (by omega) (by omega) h3)
  refine ⟨ls, cs, ?_, hlen⟩
  simp only [cutoutTextLines, TextLines.assert_ok hv, except_bind_ok]
  rw [if_neg (by omega)]
  simp only [hzero, Nat.add_zero, sliceFrom, if_pos hcl, except_bind_ok, hloop, except_pure]

theorem claim_C10_cutout_amended_witness :
    ((createTextLines [['a', 'b'], ['c']]).valid 0 0 = true) ∧
    (0 < (createTextLines [['a', 'b'], ['c']]).lineCount) ∧
    ((fun (_ : Txt) (_ : Nat) => (-5 : Int))
        ((createTextLines [['a', 'b'], ['c']]).lineAt 0) 0 < 0) ∧
    (∃ ls cs,
      cutoutTextLines (createTextLines [['a', 'b'], ['c']]) 0 0 (fun _ _ => -5)
          (fun _ _ => 0) =
        .ok (.window ⟨0, ((createTextLines [['a', 'b'], ['c']]).lineAt 0).drop 0 :: ls,
          0 :: cs⟩) ∧
      ls.length = includedLinesCount (createTextLines [['a', 'b'], ['c']])
        (fun _ _ => 0) 1 1) :=
  ⟨rfl, by decide, by decide,
    claim_C10_cutout_amended (createTextLines_WF _) 0 0 (fun _ _ => -5) (fun _ _ => 0)
      rfl (by decide) (by decide) (fun i _ _ _ => by simp)⟩

end PractalText
